import Mathlib

/-!
Shallow embedding of the mahjong-solitaire board engine found in
`main.py` (classic pygame variant), `main_flet.py` (extended flet variant)
and `main_flet_rollback_11.py` (flet variant with the solitaire2 slot mode).

Python tiles are heap objects; a board's tile collection is a list of
distinct objects, so object identity (`is`) is modelled by list index.
`Tile.__eq__` compares `tile_type` only, so Python `==`/membership tests on
tiles are modelled by `tileEq` (kind equality).
-/

/-- Embedding of the `TileType` enum (identical in all three source files). -/
inductive TileType where
  | BAMBOO_1 | BAMBOO_2 | BAMBOO_3 | BAMBOO_4 | BAMBOO_5
  | BAMBOO_6 | BAMBOO_7 | BAMBOO_8 | BAMBOO_9
  | DOT_1 | DOT_2 | DOT_3 | DOT_4 | DOT_5 | DOT_6 | DOT_7 | DOT_8 | DOT_9
  | WAN_1 | WAN_2 | WAN_3 | WAN_4 | WAN_5 | WAN_6 | WAN_7 | WAN_8 | WAN_9
  | EAST | SOUTH | WEST | NORTH
  | RED_DRAGON | GREEN_DRAGON | WHITE_DRAGON
  | FLOWER_PLUM | FLOWER_ORCHID | FLOWER_CHRYSANTHEMUM | FLOWER_BAMBOO
  | SEASON_SPRING | SEASON_SUMMER | SEASON_AUTUMN | SEASON_WINTER
  deriving DecidableEq, Repr, Fintype

/-- Embedding of the `Tile` class: `tile_type`, position `(x, y, z)` and the
mutable flags `selected`, `removed`, `highlighted` (the UI element reference is
out of scope). -/
structure Tile where
  tileType : TileType
  x : Int
  y : Int
  z : Int
  selected : Bool
  removed : Bool
  highlighted : Bool
  deriving DecidableEq, Repr

/-- Embedding of `Tile.__eq__`: two tiles are Python-`==` iff their
`tile_type`s coincide. -/
def tileEq (a b : Tile) : Bool :=
  a.tileType == b.tileType

/-- Embedding of the `Board` state used by the classic/extended variants:
the tile list, the pattern extent `width`/`height`, the currently selected
tile (by index, modelling the Python object reference) and `game_over`. -/
structure Board where
  tiles : List Tile
  width : Nat
  height : Nat
  selectedTile : Option Nat
  gameOver : Bool
  deriving Repr

/-- Embedding of the cover test shared by every `is_tile_available` variant:
some non-removed tile occupies the same `(x, y)` at a strictly higher `z`.
The Python loop ranges over all tiles (including `tile` itself, which can
never satisfy `other_tile.z > tile.z`). -/
def coveredAbove (tiles : List Tile) (t : Tile) : Bool :=
  tiles.any fun o =>
    !o.removed && o.x == t.x && o.y == t.y && decide (t.z < o.z)

/-- Embedding of the lateral-neighbour test `has_neighbor(dx, dy)` used by
`main_flet.py:Board.is_tile_available` and the rollback file: some other
(`is not tile`, i.e. different index) non-removed tile sits at the same
layer at offset `(dx, dy)`. -/
def hasNeighborAt (tiles : List Tile) (i : Nat) (t : Tile) (dx dy : Int) : Bool :=
  tiles.enum.any fun jo =>
    jo.1 ≠ i && !jo.2.removed && jo.2.z == t.z
      && jo.2.x == t.x + dx && jo.2.y == t.y + dy

/-- Embedding of `has_adjacent_same_type(dx, dy)` from
`main_flet.py:Board.is_tile_available`. -/
def hasAdjacentSameTypeAt (tiles : List Tile) (i : Nat) (t : Tile) (dx dy : Int) : Bool :=
  tiles.enum.any fun jo =>
    jo.1 ≠ i && !jo.2.removed && jo.2.tileType == t.tileType && jo.2.z == t.z
      && jo.2.x == t.x + dx && jo.2.y == t.y + dy

/-- Direction offsets used by the availability predicates. -/
def sideDirs : List (Int × Int) := [(-1, 0), (1, 0), (0, -1), (0, 1)]

/-- Embedding of `main_flet.py:Board.is_tile_available` (extended rule):
not removed, not covered from above, and either some lateral direction is
free or some lateral neighbour has the same kind. The tile is referenced by
its index `i` in `tiles` (object identity). -/
def isTileAvailableExt (b : Board) (i : Nat) : Bool :=
  match b.tiles[i]? with
  | none => false
  | some t =>
    if t.removed then false
    else if coveredAbove b.tiles t then false
    else if sideDirs.any fun d => !hasNeighborAt b.tiles i t d.1 d.2 then true
    else sideDirs.any fun d => hasAdjacentSameTypeAt b.tiles i t d.1 d.2

/-- Embedding of `main.py:Board.is_tile_available` (classic rule): not
removed, not covered from above, and not blocked simultaneously at
`x - 1` and `x + 1` on the same row and layer. The Python side loop has no
identity test, so none is modelled. -/
def isTileAvailableClassic (tiles : List Tile) (t : Tile) : Bool :=
  if t.removed then false
  else if coveredAbove tiles t then false
  else
    let leftBlocked := tiles.any fun o =>
      !o.removed && o.z == t.z && o.y == t.y && o.x == t.x - 1
    let rightBlocked := tiles.any fun o =>
      !o.removed && o.z == t.z && o.y == t.y && o.x == t.x + 1
    !(leftBlocked && rightBlocked)

/-- Embedding of the `game_mode == "solitaire2"` branch of
`main_flet_rollback_11.py:Board.is_tile_available`: not removed, not covered
from above, and not blocked on both the left and the right (its neighbour
test does carry the identity check). -/
def isTileAvailableS2 (b : Board) (i : Nat) : Bool :=
  match b.tiles[i]? with
  | none => false
  | some t =>
    if t.removed then false
    else if coveredAbove b.tiles t then false
    else
      let leftBlocked := hasNeighborAt b.tiles i t (-1) 0
      let rightBlocked := hasNeighborAt b.tiles i t 1 0
      !(leftBlocked && rightBlocked)

/-!
Connectivity search (`Board.can_connect`, identical in `main_flet.py` and
`main_flet_rollback_11.py`).

The Python search runs over states `(x, y, incoming_direction)` with a
`deque` and a `seen` dict; enqueued coordinates can leave the board by one
cell, so coordinates are `Int`.
-/
/-- Occupancy membership as computed by `can_connect`:
`{(t.x, t.y) for t in self.tiles if not t.removed and t not in (tile1, tile2)}`.
Python tuple membership uses `Tile.__eq__` (kind equality), so a tile is
excluded exactly when its kind matches `t1` or `t2`. -/
def occupiedMem (tiles : List Tile) (t1 t2 : Tile) (x y : Int) : Bool :=
  tiles.any fun t =>
    !t.removed && t.x == x && t.y == y && !(tileEq t t1 || tileEq t t2)

/-- Search context for one `can_connect` call: board extent, destination
cell and the occupancy predicate computed once per call. -/
structure ConnCtx where
  width : Nat
  height : Nat
  dest : Int × Int
  occ : Int × Int → Bool

/-- Embedding of the nested `is_free(x, y)`: the destination cell is always
passable; cells beyond the one-cell border are not; border cells are; board
cells are passable iff unoccupied. -/
def isFree (c : ConnCtx) (x y : Int) : Bool :=
  if x = c.dest.1 ∧ y = c.dest.2 then true
  else if x < -1 ∨ (c.width : Int) < x ∨ y < -1 ∨ (c.height : Int) < y then false
  else if x < 0 ∨ (c.width : Int) ≤ x ∨ y < 0 ∨ (c.height : Int) ≤ y then true
  else !c.occ (x, y)

/-- Direction vectors in the order of the Python `directions` list
`[(0, -1), (1, 0), (0, 1), (-1, 0)]`; a direction is its index. -/
def dirVec (d : Fin 4) : Int × Int :=
  match d.val with
  | 0 => (0, -1)
  | 1 => (1, 0)
  | 2 => (0, 1)
  | _ => (-1, 0)

/-- Search state `(x, y, incoming_direction)` — the keys of `seen`. -/
structure St where
  x : Int
  y : Int
  dir : Option (Fin 4)
  deriving DecidableEq, Repr

/-- Queue entry `(x, y, direction, turns)`. -/
structure Entry where
  x : Int
  y : Int
  dir : Option (Fin 4)
  turns : Nat
  deriving DecidableEq, Repr

/-- State of a queue entry. -/
def Entry.st (e : Entry) : St := ⟨e.x, e.y, e.dir⟩

/-- The `seen` dict, as an association list; assignment conses in front. -/
abbrev Seen := List (St × Nat)

/-- Lookup in `seen` (`seen.get(state)`). -/
def seenFind (s : Seen) (k : St) : Option Nat :=
  match s with
  | [] => none
  | (k', v) :: rest => if k' = k then some v else seenFind rest k

/-- Turn cost of moving in direction `d` with incoming direction `dOpt`:
`0 if direction == dir_idx or direction is None else 1`. -/
def costOf (dOpt : Option (Fin 4)) (d : Fin 4) : Nat :=
  match dOpt with
  | none => 0
  | some d0 => if d0 = d then 0 else 1

/-- One iteration of the Python `for dir_idx, (dx, dy) in enumerate(directions)`
body: possibly record a better turn count for the neighbouring state and
append the corresponding entry to the pending pushes. -/
def relax (c : ConnCtx) (mt : Nat) (e : Entry) (acc : Seen × List Entry) (d : Fin 4) :
    Seen × List Entry :=
  let nx := e.x + (dirVec d).1
  let ny := e.y + (dirVec d).2
  let nt := e.turns + costOf e.dir d
  if mt < nt then acc
  else if isFree c nx ny = false then acc
  else
    match seenFind acc.1 ⟨nx, ny, some d⟩ with
    | some p =>
      if p ≤ nt then acc
      else ((⟨nx, ny, some d⟩, nt) :: acc.1, acc.2 ++ [⟨nx, ny, some d, nt⟩])
    | none => ((⟨nx, ny, some d⟩, nt) :: acc.1, acc.2 ++ [⟨nx, ny, some d, nt⟩])

/-- Expansion of one popped entry over the four directions, in order. -/
def expandE (c : ConnCtx) (mt : Nat) (e : Entry) (s : Seen) : Seen × List Entry :=
  (List.finRange 4).foldl (relax c mt e) (s, [])

/-- The `while queue:` loop, with explicit fuel; `none` means the fuel ran
out (a sufficient fuel is computed below and proved sufficient). Returns the
Python boolean result together with the final `seen`. -/
def bfsLoop (c : ConnCtx) (mt : Nat) : Nat → List Entry → Seen → Option (Bool × Seen)
  | 0, _, _ => none
  | _ + 1, [], s => some (false, s)
  | f + 1, e :: q, s =>
    if e.x = c.dest.1 ∧ e.y = c.dest.2 ∧ e.turns ≤ mt then some (true, s)
    else
      let es := expandE c mt e s
      bfsLoop c mt f (q ++ es.2) es.1

/-- Integer interval `[lo, hi]` as a list. -/
def rangeInt (lo hi : Int) : List Int :=
  (List.range (hi - lo + 1).toNat).map fun (k : Nat) => lo + (k : Int)

/-- Every state the loop can ever record in `seen`: the inflated grid (and
the destination cell, which `is_free` always admits) times the four
directions. Used only for the termination measure and the fuel bound. -/
def allStates (c : ConnCtx) : List St :=
  ((rangeInt (-1) c.width).flatMap fun x =>
    (rangeInt (-1) c.height).flatMap fun y =>
      (List.finRange 4).map fun d => St.mk x y (some d))
  ++ (List.finRange 4).map fun d => St.mk c.dest.1 c.dest.2 (some d)

/-- Capped recorded turn count of a state (defaults to `mt + 1`). -/
def stVal (mt : Nat) (s : Seen) (k : St) : Nat :=
  match seenFind s k with
  | some p => min p (mt + 1)
  | none => mt + 1

/-- Termination potential of `seen`: total capped turn count over all states. -/
def phi (c : ConnCtx) (mt : Nat) (s : Seen) : Nat :=
  ((allStates c).map (stVal mt s)).sum

/-- Termination measure of the loop: every iteration strictly decreases it. -/
def bfsMeasure (c : ConnCtx) (mt : Nat) (q : List Entry) (s : Seen) : Nat :=
  5 * phi c mt s + q.length

/-- A fuel that strictly dominates the initial measure of any `can_connect`
call (the initial `seen` holds only the start state, whose key has no
direction and therefore lies outside `allStates`). -/
def connFuel (c : ConnCtx) (mt : Nat) : Nat :=
  5 * ((mt + 1) * (allStates c).length) + 2

/-- Search context of `can_connect(tile1, tile2)` on a board. -/
def connCtx (b : Board) (t1 t2 : Tile) : ConnCtx :=
  ⟨b.width, b.height, (t2.x, t2.y), fun p => occupiedMem b.tiles t1 t2 p.1 p.2⟩

/-- Embedding of `Board.can_connect(tile1, tile2, max_turns)`; the two tiles
are given by index (`tile1 is tile2` is index equality). Out-of-range
indices have no Python counterpart and yield `false`. -/
def canConnect (b : Board) (i j : Nat) (mt : Nat) : Bool :=
  match b.tiles[i]?, b.tiles[j]? with
  | some t1, some t2 =>
    if i = j then false
    else if t1.tileType ≠ t2.tileType then false
    else
      let c := connCtx b t1 t2
      match bfsLoop c mt (connFuel c mt) [⟨t1.x, t1.y, none, 0⟩] [(⟨t1.x, t1.y, none⟩, 0)] with
      | some r => r.1
      | none => false
  | _, _ => false

/-- The `max_turns = 2` default used by every call site. -/
def canConnect2 (b : Board) (i j : Nat) : Bool :=
  canConnect b i j 2

/-!
Declarative path semantics for the search: a route is a list of direction
indices; it must step through `is_free` cells and is scored by its number
of direction changes.
-/
/-- One orthogonal step. -/
def stepPos (p : Int × Int) (d : Fin 4) : Int × Int :=
  (p.1 + (dirVec d).1, p.2 + (dirVec d).2)

/-- Endpoint of a route started at `p`. -/
def pathPos (p : Int × Int) (ms : List (Fin 4)) : Int × Int :=
  ms.foldl stepPos p

/-- A route is traversable when every visited cell after the start passes
`is_free` (the start cell itself is never tested by the search). -/
def pathValidB (c : ConnCtx) : Int × Int → List (Fin 4) → Bool
  | _, [] => true
  | p, d :: rest => isFree c (stepPos p d).1 (stepPos p d).2 && pathValidB c (stepPos p d) rest

/-- Number of direction changes along a route (the first move is free). -/
def countChanges : List (Fin 4) → Nat
  | [] => 0
  | [_] => 0
  | a :: b :: r => (if a = b then 0 else 1) + countChanges (b :: r)

/-- Declarative meaning of the loop: some route from `start` reaches the
destination through free cells with at most `mt` turns. -/
def connSpec (c : ConnCtx) (mt : Nat) (start : Int × Int) : Prop :=
  ∃ ms : List (Fin 4), pathPos start ms = c.dest ∧ pathValidB c start ms = true ∧
    countChanges ms ≤ mt

/-!
Soundness of the loop: every queue entry is realizable by a route, so a
`True` answer yields a route within the turn budget.
-/
/-- An entry is realizable: some traversable route from `start` ends at its
cell, with its incoming direction and exactly its turn count. -/
def entryReal (c : ConnCtx) (mt : Nat) (start : Int × Int) (e : Entry) : Prop :=
  ∃ ms : List (Fin 4), pathPos start ms = (e.x, e.y) ∧ pathValidB c start ms = true ∧
    countChanges ms = e.turns ∧ ms.getLast? = e.dir ∧ e.turns ≤ mt

/-!
Completeness of the loop: when it drains the queue without a hit, the final
`seen` is closed under relaxation and records no destination state, so no
route within the budget can exist.
-/
/-- Entry with the given state and turn count. -/
def mkEntry (k : St) (v : Nat) : Entry := ⟨k.x, k.y, k.dir, v⟩

/-- Every relaxation step out of state `k` at cost `v` is already recorded
in `S` with a turn count at most the step's cost. -/
def expandedIn (c : ConnCtx) (mt : Nat) (S : Seen) (k : St) (v : Nat) : Prop :=
  ∀ d : Fin 4, isFree c (k.x + (dirVec d).1) (k.y + (dirVec d).2) = true →
    v + costOf k.dir d ≤ mt →
    ∃ w, w ≤ v + costOf k.dir d ∧
      seenFind S ⟨k.x + (dirVec d).1, k.y + (dirVec d).2, some d⟩ = some w

/-- `S` refines `s`: every recorded state keeps a recorded value, and it
never grows. -/
def seenRefines (S s : Seen) : Prop :=
  ∀ k v, seenFind s k = some v → ∃ w, w ≤ v ∧ seenFind S k = some w

/-!
Symmetry of the declarative semantics: a route reverses move by move, with
flipped directions, the same turn count, and the two endpoint roles swapped.
-/
/-- Total displacement of a move list. -/
def sumVec : List (Fin 4) → Int × Int
  | [] => (0, 0)
  | d :: ms => ((dirVec d).1 + (sumVec ms).1, (dirVec d).2 + (sumVec ms).2)

/-- Opposite direction (indices `0 ↔ 2`, `1 ↔ 3`). -/
def flipDir (d : Fin 4) : Fin 4 :=
  ⟨(d.val + 2) % 4, Nat.mod_lt _ (by omega)⟩

/-!
Remaining engine operations: clicks, termination checks, reshuffle,
generation, and the solitaire2 slot variant of the rollback file.
-/
/-- Update the tile at index `i` (no-op when out of range, which has no
Python counterpart: mutation goes through a live object reference). -/
def setTile (tiles : List Tile) (i : Nat) (f : Tile → Tile) : List Tile :=
  match tiles[i]? with
  | some t => tiles.set i (f t)
  | none => tiles

/-- The fueled variant of `canConnect`, used to state that the search loop
stabilizes: `canConnect` itself runs it at the sufficient fuel `connFuel`. -/
def canConnectFuel (b : Board) (i j mt f : Nat) : Bool :=
  match b.tiles[i]?, b.tiles[j]? with
  | some t1, some t2 =>
    if i = j then false
    else if t1.tileType ≠ t2.tileType then false
    else
      match bfsLoop (connCtx b t1 t2) mt f
        [⟨t1.x, t1.y, none, 0⟩] [(⟨t1.x, t1.y, none⟩, 0)] with
      | some r => r.1
      | none => false
  | _, _ => false

/-- Embedding of `get_available_tiles` (extended rule), as indices in board
order. -/
def availableIdx (b : Board) : List Nat :=
  (List.range b.tiles.length).filter fun i => isTileAvailableExt b i

/-- Python `tile1 == tile2` on two board tiles given by index. -/
def tileEqAt (b : Board) (i j : Nat) : Bool :=
  match b.tiles[i]?, b.tiles[j]? with
  | some t1, some t2 => tileEq t1 t2
  | _, _ => false

/-- Embedding of `main_flet.py:Board.has_possible_moves` (identical in the
rollback file): fewer than two available tiles means no move; otherwise scan
ordered pairs of available tiles for an equal-kind connectable pair. -/
def hasPossibleMoves (b : Board) : Bool :=
  let avail := availableIdx b
  if avail.length < 2 then false
  else
    avail.enum.any fun p =>
      (avail.drop (p.1 + 1)).any fun j => tileEqAt b p.2 j && canConnect b p.2 j 2

/-- Embedding of `Board.is_game_won`: every tile is removed. -/
def isGameWon (b : Board) : Bool :=
  b.tiles.all fun t => t.removed

/-- Embedding of `main_flet.py:Board.is_game_lost`. -/
def isGameLost (b : Board) : Bool :=
  !hasPossibleMoves b

/-- Embedding of `main_flet.py:Board.click_tile` (extended rule). The click
target is index `i`; `selected_tile` is the selected index. -/
def clickTileExt (b : Board) (i : Nat) : Board :=
  match b.tiles[i]? with
  | none => b
  | some t =>
    if b.gameOver then b
    else if t.removed then b
    else if ¬isTileAvailableExt b i then
      match b.selectedTile with
      | some s =>
        { b with tiles := setTile b.tiles s fun u => { u with selected := false },
                 selectedTile := none }
      | none => b
    else
      match b.selectedTile with
      | none =>
        { b with tiles := setTile b.tiles i fun u => { u with selected := true },
                 selectedTile := some i }
      | some s =>
        if s = i then
          { b with tiles := setTile b.tiles s fun u => { u with selected := false },
                   selectedTile := none }
        else
          match b.tiles[s]? with
          | none => b
          | some ts =>
            if ts.tileType = t.tileType then
              if isTileAvailableExt b s ∧ isTileAvailableExt b i ∧ canConnect b s i 2 then
                { b with
                  tiles := setTile
                    (setTile b.tiles s fun u => { u with removed := true, selected := false })
                    i fun u => { u with removed := true },
                  selectedTile := none }
              else
                { b with
                  tiles := setTile (setTile b.tiles s fun u => { u with selected := false })
                    i fun u => { u with selected := true },
                  selectedTile := some i }
            else
              { b with
                tiles := setTile (setTile b.tiles s fun u => { u with selected := false })
                  i fun u => { u with selected := true },
                selectedTile := some i }

/-- Embedding of the classic availability wrapper for an indexed tile
(`main.py` has no identity check in the side loops, so the tile value is
enough, but the click handler still refers to tiles by identity). -/
def isTileAvailableClassicAt (b : Board) (i : Nat) : Bool :=
  match b.tiles[i]? with
  | some t => isTileAvailableClassic b.tiles t
  | none => false

/-- Embedding of `main.py:Board.click_tile` (classic rule): no `game_over`
gate and no connectivity requirement on a matched pair. -/
def clickTileClassic (b : Board) (i : Nat) : Board :=
  match b.tiles[i]? with
  | none => b
  | some t =>
    if t.removed then b
    else if ¬isTileAvailableClassicAt b i then
      match b.selectedTile with
      | some s =>
        { b with tiles := setTile b.tiles s fun u => { u with selected := false },
                 selectedTile := none }
      | none => b
    else
      match b.selectedTile with
      | none =>
        { b with tiles := setTile b.tiles i fun u => { u with selected := true },
                 selectedTile := some i }
      | some s =>
        if s = i then
          { b with tiles := setTile b.tiles s fun u => { u with selected := false },
                   selectedTile := none }
        else
          match b.tiles[s]? with
          | none => b
          | some ts =>
            if ts.tileType = t.tileType then
              if isTileAvailableClassicAt b s ∧ isTileAvailableClassicAt b i then
                { b with
                  tiles := setTile
                    (setTile b.tiles s fun u => { u with removed := true, selected := false })
                    i fun u => { u with removed := true },
                  selectedTile := none }
              else
                { b with
                  tiles := setTile (setTile b.tiles s fun u => { u with selected := false })
                    i fun u => { u with selected := true },
                  selectedTile := some i }
            else
              { b with
                tiles := setTile (setTile b.tiles s fun u => { u with selected := false })
                  i fun u => { u with selected := true },
                selectedTile := some i }

/-- Indices of the non-removed tiles, in board order (`remaining` in
`reshuffle_remaining_tiles`). -/
def remainingIdx (b : Board) : List Nat :=
  (List.range b.tiles.length).filter fun i =>
    match b.tiles[i]? with
    | some t => !t.removed
    | none => false

/-- Embedding of `main_flet.py:Board.reshuffle_remaining_tiles`. The two
`random.shuffle` outcomes are inputs: `ord` is the shuffled order of the
remaining tiles (a permutation of `remainingIdx`) and `pool` the shuffled
paired kind pool (`zip` truncates at the shorter list, exactly as in
Python). -/
def reshuffleRemaining (b : Board) (ord : List Nat) (pool : List TileType) : Board :=
  if (remainingIdx b).length ≤ 1 then b
  else
    { b with
      tiles := (ord.zip pool).foldl
        (fun ts p => setTile ts p.1 fun u =>
          { u with tileType := p.2, selected := false, highlighted := false })
        b.tiles,
      selectedTile := none,
      gameOver := false }

/-- Paired kind pool of generation and reshuffle: each drawn kind twice. -/
def pairedPool (pairChoices : List TileType) : List TileType :=
  pairChoices.flatMap fun k => [k, k]

/-- The `_create_pyramid_pattern` of `main_flet.py`: one full 20 × 10 layer. -/
def fletPattern : List (List (List Bool)) :=
  [List.replicate 10 (List.replicate 20 true)]

/-- Pattern cells in the `z`-major, `y`-major, `x`-major iteration order of
`generate_board`. -/
def patternCells (pattern : List (List (List Bool))) : List (Nat × Nat × Nat × Bool) :=
  pattern.enum.flatMap fun zl =>
    zl.2.enum.flatMap fun yr =>
      yr.2.enum.map fun xc => (zl.1, yr.1, xc.1, xc.2)

/-- Tile placement of `main_flet.py:Board.generate_board`: the cell counter
`tile_index` advances on every pattern cell (placed or not), and a tile is
placed when the cell is set and the counter is still within the pool. -/
def placeTilesFlet (pattern : List (List (List Bool))) (pool : List TileType) : List Tile :=
  ((patternCells pattern).foldl
    (fun (acc : Nat × List Tile) cell =>
      if cell.2.2.2 ∧ acc.1 < pool.length then
        (acc.1 + 1,
          acc.2 ++ [⟨pool.getD acc.1 TileType.BAMBOO_1, (cell.2.2.1 : Int),
            (cell.2.1 : Int), (cell.1 : Int), false, false, false⟩])
      else (acc.1 + 1, acc.2))
    (0, [])).2

/-- Tile placement of `main_flet_rollback_11.py:Board.generate_board`: there
`tile_index` advances only when a tile is actually placed. -/
def placeTilesRoll (pattern : List (List (List Bool))) (pool : List TileType) : List Tile :=
  ((patternCells pattern).foldl
    (fun (acc : Nat × List Tile) cell =>
      if cell.2.2.2 ∧ acc.1 < pool.length then
        (acc.1 + 1,
          acc.2 ++ [⟨pool.getD acc.1 TileType.BAMBOO_1, (cell.2.2.1 : Int),
            (cell.2.1 : Int), (cell.1 : Int), false, false, false⟩])
      else (acc.1, acc.2))
    (0, [])).2

/-- Embedding of `main_flet.py:Board.generate_board`. The ten
`random.shuffle` outcomes are the input list; the loop body only overwrites
`board_tiles`, so after the loop only the final shuffle remains. Tiles are
then placed once and solvability is evaluated once (after the single layer
of the 20 × 10 pattern); the boolean result records whether the
generation-failure warning is printed. -/
def generateFlet (shuffles : List (List TileType)) : List Tile × Bool :=
  let boardTiles := shuffles.foldl (fun _ s => s) []
  let tiles := placeTilesFlet fletPattern boardTiles
  if !isGameLost ⟨tiles, 20, 10, none, false⟩ then (tiles, false)
  else (tiles, true)

/-- Embedding of the retry loop of
`main_flet_rollback_11.py:Board.generate_board`: each attempt re-places the
next shuffle outcome on the pattern and re-evaluates solvability; the third
component counts the placements performed. -/
def generateRollLoop (pattern : List (List (List Bool))) (W H : Nat) :
    List (List TileType) → List Tile → List Tile × Bool × Nat
  | [], last => (last, true, 0)
  | pool :: rest, _ =>
    let tiles := placeTilesRoll pattern pool
    if !isGameLost ⟨tiles, W, H, none, false⟩ then (tiles, false, 1)
    else
      let r := generateRollLoop pattern W H rest tiles
      (r.1, r.2.1, r.2.2 + 1)

/-- Embedding of the rollback `generate_board` body (after the pool has been
built), with `max_attempts = 10` shuffle outcomes supplied as input. -/
def generateRoll (pattern : List (List (List Bool))) (W H : Nat)
    (pools : List (List TileType)) : List Tile × Bool × Nat :=
  generateRollLoop pattern W H pools []

/-- Undo record of the solitaire2 variant:
`{tile, x, y, z, slot_index}`. -/
structure S2Move where
  tileIdx : Nat
  x : Int
  y : Int
  z : Int
  slotIndex : Nat
  deriving DecidableEq, Repr

/-- State of the solitaire2 slot variant: the board tiles plus the module
globals `solitaire2_slots` (tile references by index),
`solitaire2_last_move`, `solitaire2_pending_removal` and
`solitaire2_third_slot_unlocked`. -/
structure S2State where
  tiles : List Tile
  width : Nat
  height : Nat
  slots : List (Option Nat)
  lastMove : Option S2Move
  pendingRemoval : Bool
  thirdUnlocked : Bool
  deriving DecidableEq, Repr

/-- The board view of a solitaire2 state, as `board.is_tile_available`
sees it. -/
def S2State.board (s : S2State) : Board :=
  ⟨s.tiles, s.width, s.height, none, false⟩

/-- The slot-match scan of `tile_clicked`: walk `solitaire2_slots[:2]` in
order and pick the first occupied slot holding the clicked kind. Returns
the slot index and the held tile's index. -/
def s2MatchSlot (s : S2State) (kind : TileType) : Option (Nat × Nat) :=
  match s.slots.getD 0 none with
  | some a0 =>
    match s.tiles[a0]? with
    | some ta0 =>
      if ta0.tileType = kind then some (0, a0)
      else
        match s.slots.getD 1 none with
        | some a1 =>
          match s.tiles[a1]? with
          | some ta1 => if ta1.tileType = kind then some (1, a1) else none
          | none => none
        | none => none
    | none => none
  | none =>
    match s.slots.getD 1 none with
    | some a1 =>
      match s.tiles[a1]? with
      | some ta1 => if ta1.tileType = kind then some (1, a1) else none
      | none => none
    | none => none

/-- First free slot in priority order 0, 1, then 2 when the third slot is
unlocked (the `slot_index` selection chain of `tile_clicked`). -/
def s2FirstFree (s : S2State) : Option Nat :=
  if s.slots.getD 0 none = none then some 0
  else if s.slots.getD 1 none = none then some 1
  else if s.thirdUnlocked ∧ s.slots.getD 2 none = none then some 2
  else none

/-- Slot placement phase of `tile_clicked` (solitaire2): the placed tile
gets its `removed` flag set, the single undo record is overwritten, and if
slots 0 and 1 then hold equal kinds the delayed pair removal is flagged
(the actual removal runs 0.3 s later on a timer, outside this synchronous
step). With no free slot the click changes nothing. -/
def s2Place (s : S2State) (i : Nat) (t : Tile) : S2State :=
  match s2FirstFree s with
  | none => s
  | some si =>
    let s1 : S2State :=
      { s with
        slots := s.slots.set si (some i),
        tiles := setTile s.tiles i fun u => { u with removed := true },
        lastMove := some ⟨i, t.x, t.y, t.z, si⟩ }
    match s1.slots.getD 0 none, s1.slots.getD 1 none with
    | some a0, some a1 =>
      match s1.tiles[a0]?, s1.tiles[a1]? with
      | some ta0, some ta1 =>
        if ta0.tileType = ta1.tileType then { s1 with pendingRemoval := true } else s1
      | _, _ => s1
    | _, _ => s1

/-- Embedding of the synchronous solitaire2 branch of `tile_clicked`
(`main_flet_rollback_11.py`): reject unavailable or removed tiles; with
slots 0 and 1 both occupied and a kind match among them, remove the held
tile and the clicked tile at once and clear that slot (and the undo
record); otherwise place into the first free slot. -/
def tileClicked (s : S2State) (i : Nat) : S2State :=
  match s.tiles[i]? with
  | none => s
  | some t =>
    if ¬isTileAvailableS2 s.board i ∨ t.removed then s
    else
      match s.slots.getD 0 none, s.slots.getD 1 none with
      | some _, some _ =>
        match s2MatchSlot s t.tileType with
        | some si =>
          { s with
            lastMove := none,
            pendingRemoval := false,
            tiles := setTile (setTile s.tiles i fun u => { u with removed := true })
              si.2 fun u => { u with removed := true },
            slots := s.slots.set si.1 none }
        | none => s2Place s i t
      | _, _ => s2Place s i t

/-- Embedding of `undo_last_move_solitaire2`: no record means no-op; the
slot check `solitaire2_slots[slot_index] != tile` goes through
`Tile.__eq__`, i.e. compares kinds (an empty slot compares unequal); on a
kind match the recorded tile returns to its recorded position and the slot
and record are cleared. -/
def undoLastMove (s : S2State) : S2State :=
  match s.lastMove with
  | none => s
  | some m =>
    let slotHolds : Bool :=
      match s.slots.getD m.slotIndex none with
      | none => false
      | some j =>
        match s.tiles[j]?, s.tiles[m.tileIdx]? with
        | some tj, some tm => tileEq tj tm
        | _, _ => false
    if ¬slotHolds then { s with lastMove := none }
    else
      { s with
        tiles := setTile s.tiles m.tileIdx fun u =>
          { u with x := m.x, y := m.y, z := m.z, removed := false },
        slots := s.slots.set m.slotIndex none,
        lastMove := none }

/-- Number of non-removed tiles of kind `k` — the per-kind cardinality of
the invariant in the specification. -/
def kindCount (tiles : List Tile) (k : TileType) : Nat :=
  tiles.countP fun t => !t.removed && t.tileType == k

/-- Every kind class has an even number of non-removed tiles. -/
def evenKinds (tiles : List Tile) : Prop :=
  ∀ k, kindCount tiles k % 2 = 0

/-- Occupancy set named by the specification sentence of claim C2: the
positions of all non-removed tiles except the two endpoint tiles (by
identity) themselves. -/
def occupiedSpecMem (tiles : List Tile) (i j : Nat) (x y : Int) : Bool :=
  tiles.enum.any fun p =>
    p.1 ≠ i && p.1 ≠ j && !p.2.removed && p.2.x == x && p.2.y == y

/-!
Claim C6 — availability: blocked from above, and monotone under removals.
-/
/-- No two live (non-removed) tiles share a position — the data-model
invariant of the specification. -/
def distinctLive (tiles : List Tile) : Prop :=
  ∀ (j1 j2 : Nat) (t1 t2 : Tile), tiles[j1]? = some t1 → tiles[j2]? = some t2 →
    t1.removed = false → t2.removed = false →
    t1.x = t2.x → t1.y = t2.y → t1.z = t2.z → j1 = j2

/-- Index-level view of the kind-count predicate: does the tile stored at
`idx` count towards `kindCount _ k`? -/
def liveKindAt (tiles : List Tile) (k : TileType) (idx : Nat) : Bool :=
  match tiles[idx]? with
  | some t => !t.removed && t.tileType == k
  | none => false

/-!
Claim C9 — termination of the search and of the retry loop.
-/
/-- Fuel that provably suffices for the search on the given pair of tiles
(zero when either index is out of range, where the search never starts). -/
def connFuelBound (b : Board) (i j mt : Nat) : Nat :=
  match b.tiles[i]?, b.tiles[j]? with
  | some t1, some t2 => connFuel (connCtx b t1 t2) mt
  | _, _ => 0

/-!
Theorems: verification of the engine above, organised claim by claim
with the supporting lemma developments preceding each claim theorem.
-/

/-!
Termination of the search loop: every iteration strictly decreases
`bfsMeasure`, so `connFuel` is enough fuel and the loop stabilizes.
-/
theorem seenFind_cons (k' : St) (v : Nat) (s : Seen) (k : St) :
    seenFind ((k', v) :: s) k = if k' = k then some v else seenFind s k := rfl

theorem stVal_cons (mt : Nat) (k' : St) (v : Nat) (s : Seen) (k : St) :
    stVal mt ((k', v) :: s) k = if k' = k then min v (mt + 1) else stVal mt s k := by
  unfold stVal
  rw [seenFind_cons]
  by_cases h : k' = k <;> simp [h]

theorem stVal_le (mt : Nat) (s : Seen) (k : St) : stVal mt s k ≤ mt + 1 := by
  unfold stVal
  cases seenFind s k with
  | none => exact le_refl _
  | some p => exact min_le_right _ _

theorem sum_stVal_cons_le (mt : Nat) (k : St) (v : Nat) (s : Seen) (l : List St)
    (h : min v (mt + 1) ≤ stVal mt s k) :
    (l.map (stVal mt ((k, v) :: s))).sum ≤ (l.map (stVal mt s)).sum := by
  induction l with
  | nil => simp
  | cons a l ih =>
    simp only [List.map_cons, List.sum_cons]
    have ha : stVal mt ((k, v) :: s) a ≤ stVal mt s a := by
      rw [stVal_cons]
      by_cases hk : k = a
      · subst hk; simpa using h
      · simp [hk]
    omega

theorem sum_stVal_cons_lt (mt : Nat) (k : St) (v : Nat) (s : Seen) (l : List St)
    (h : min v (mt + 1) < stVal mt s k) (hmem : k ∈ l) :
    (l.map (stVal mt ((k, v) :: s))).sum < (l.map (stVal mt s)).sum := by
  induction l with
  | nil => simp at hmem
  | cons a l ih =>
    simp only [List.map_cons, List.sum_cons]
    rcases List.mem_cons.mp hmem with rfl | hmem'
    · have := sum_stVal_cons_le mt k v s l (le_of_lt h)
      have hk : stVal mt ((k, v) :: s) k = min v (mt + 1) := by
        rw [stVal_cons]; simp
      omega
    · have ha : stVal mt ((k, v) :: s) a ≤ stVal mt s a := by
        rw [stVal_cons]
        by_cases hk : k = a
        · subst hk; simpa using le_of_lt h
        · simp [hk]
      have := ih hmem'
      omega

theorem mem_rangeInt {lo hi x : Int} (h1 : lo ≤ x) (h2 : x ≤ hi) :
    x ∈ rangeInt lo hi := by
  unfold rangeInt
  refine List.mem_map.mpr ⟨(x - lo).toNat, ?_, ?_⟩
  · exact List.mem_range.mpr (show (x - lo).toNat < (hi - lo + 1).toNat by omega)
  · show lo + ((x - lo).toNat : Int) = x
    omega

theorem isFree_mem_allStates {c : ConnCtx} {x y : Int} (h : isFree c x y = true)
    (d : Fin 4) : St.mk x y (some d) ∈ allStates c := by
  unfold isFree at h
  unfold allStates
  by_cases hd : x = c.dest.1 ∧ y = c.dest.2
  · apply List.mem_append_right
    simp only [List.mem_map]
    exact ⟨d, List.mem_finRange d, by rw [hd.1, hd.2]⟩
  · rw [if_neg hd] at h
    by_cases hb : x < -1 ∨ (c.width : Int) < x ∨ y < -1 ∨ (c.height : Int) < y
    · rw [if_pos hb] at h; exact absurd h (by simp)
    · apply List.mem_append_left
      push_neg at hb
      simp only [List.mem_flatMap, List.mem_map]
      refine ⟨x, mem_rangeInt (by omega) (by omega), y,
        mem_rangeInt (by omega) (by omega), d, List.mem_finRange d, rfl⟩

theorem relax_measure (c : ConnCtx) (mt : Nat) (e : Entry) (acc : Seen × List Entry)
    (d : Fin 4) :
    5 * phi c mt (relax c mt e acc d).1 + (relax c mt e acc d).2.length ≤
      5 * phi c mt acc.1 + acc.2.length := by
  unfold relax
  by_cases h1 : mt < e.turns + costOf e.dir d
  · rw [if_pos h1]
  · rw [if_neg h1]
    by_cases h2 : isFree c (e.x + (dirVec d).1) (e.y + (dirVec d).2) = false
    · rw [if_pos h2]
    · rw [if_neg h2]
      have hfree : isFree c (e.x + (dirVec d).1) (e.y + (dirVec d).2) = true := by
        revert h2; cases isFree c (e.x + (dirVec d).1) (e.y + (dirVec d).2) <;> simp
      have hmem := isFree_mem_allStates hfree d
      have hnt : e.turns + costOf e.dir d ≤ mt := Nat.le_of_not_lt h1
      set k : St := ⟨e.x + (dirVec d).1, e.y + (dirVec d).2, some d⟩ with hk
      set nt := e.turns + costOf e.dir d with hnt'
      cases hfind : seenFind acc.1 k with
      | some p =>
        by_cases hle : p ≤ nt
        · simp only [hfind, hle, if_true]
          exact le_refl _
        · simp only [hfind, hle, if_false]
          have hsv : stVal mt acc.1 k = min p (mt + 1) := by
            unfold stVal; rw [hfind]
          have hlt : min nt (mt + 1) < stVal mt acc.1 k := by
            rw [hsv]
            have hm1 : min nt (mt + 1) = nt := min_eq_left (by omega)
            have hm2 : nt < min p (mt + 1) := lt_min (by omega) (by omega)
            omega
          have := sum_stVal_cons_lt mt k nt acc.1 (allStates c) hlt hmem
          unfold phi
          simp only [List.length_append, List.length_cons, List.length_nil]
          omega
      | none =>
        simp only [hfind]
        have hsv : stVal mt acc.1 k = mt + 1 := by
          unfold stVal; rw [hfind]
        have hlt : min nt (mt + 1) < stVal mt acc.1 k := by
          rw [hsv]
          have hm1 : min nt (mt + 1) = nt := min_eq_left (by omega)
          omega
        have := sum_stVal_cons_lt mt k nt acc.1 (allStates c) hlt hmem
        unfold phi
        simp only [List.length_append, List.length_cons, List.length_nil]
        omega

theorem foldl_relax_measure (c : ConnCtx) (mt : Nat) (e : Entry)
    (L : List (Fin 4)) (acc : Seen × List Entry) :
    5 * phi c mt (L.foldl (relax c mt e) acc).1 + (L.foldl (relax c mt e) acc).2.length ≤
      5 * phi c mt acc.1 + acc.2.length := by
  induction L generalizing acc with
  | nil => simp
  | cons d L ih =>
    simp only [List.foldl_cons]
    exact le_trans (ih (relax c mt e acc d)) (relax_measure c mt e acc d)

theorem expandE_measure (c : ConnCtx) (mt : Nat) (e : Entry) (s : Seen) :
    5 * phi c mt (expandE c mt e s).1 + (expandE c mt e s).2.length ≤
      5 * phi c mt s := by
  have := foldl_relax_measure c mt e (List.finRange 4) (s, [])
  simpa [expandE] using this

theorem bfsMeasure_step (c : ConnCtx) (mt : Nat) (e : Entry) (q : List Entry) (s : Seen) :
    bfsMeasure c mt (q ++ (expandE c mt e s).2) (expandE c mt e s).1 <
      bfsMeasure c mt (e :: q) s := by
  unfold bfsMeasure
  have := expandE_measure c mt e s
  simp only [List.length_append, List.length_cons]
  omega

theorem bfsLoop_isSome (c : ConnCtx) (mt : Nat) :
    ∀ f q s, bfsMeasure c mt q s < f → (bfsLoop c mt f q s).isSome := by
  intro f
  induction f with
  | zero => intro q s h; omega
  | succ f ih =>
    intro q s h
    match q with
    | [] => simp [bfsLoop]
    | e :: q =>
      rw [bfsLoop]
      by_cases hhit : e.x = c.dest.1 ∧ e.y = c.dest.2 ∧ e.turns ≤ mt
      · rw [if_pos hhit]; rfl
      · rw [if_neg hhit]
        apply ih
        have := bfsMeasure_step c mt e q s
        omega

theorem bfsLoop_stable (c : ConnCtx) (mt : Nat) :
    ∀ f g q s, bfsMeasure c mt q s < f → bfsMeasure c mt q s < g →
      bfsLoop c mt f q s = bfsLoop c mt g q s := by
  intro f
  induction f with
  | zero => intro g q s h; omega
  | succ f ih =>
    intro g q s hf hg
    match g with
    | 0 => omega
    | g + 1 =>
      match q with
      | [] => simp [bfsLoop]
      | e :: q =>
        rw [bfsLoop, bfsLoop]
        by_cases hhit : e.x = c.dest.1 ∧ e.y = c.dest.2 ∧ e.turns ≤ mt
        · rw [if_pos hhit, if_pos hhit]
        · rw [if_neg hhit, if_neg hhit]
          have hstep := bfsMeasure_step c mt e q s
          exact ih g _ _ (by omega) (by omega)

theorem phi_le (c : ConnCtx) (mt : Nat) (s : Seen) :
    phi c mt s ≤ (mt + 1) * (allStates c).length := by
  unfold phi
  calc ((allStates c).map (stVal mt s)).sum
      ≤ ((allStates c).map (stVal mt s)).length * (mt + 1) := by
        apply List.sum_le_card_nsmul
        intro x hx
        rcases List.mem_map.mp hx with ⟨k, _, rfl⟩
        exact stVal_le mt s k
    _ = (mt + 1) * (allStates c).length := by
        rw [List.length_map]; ring

theorem connFuel_sufficient (c : ConnCtx) (mt : Nat) (e : Entry) (s0 : Seen) :
    bfsMeasure c mt [e] s0 < connFuel c mt := by
  unfold bfsMeasure connFuel
  have := phi_le c mt s0
  simp only [List.length_cons, List.length_nil]
  omega

theorem pathPos_append (p : Int × Int) (ms ns : List (Fin 4)) :
    pathPos p (ms ++ ns) = pathPos (pathPos p ms) ns := by
  simp [pathPos]

theorem pathPos_cons (p : Int × Int) (a : Fin 4) (ms : List (Fin 4)) :
    pathPos p (a :: ms) = pathPos (stepPos p a) ms := rfl

theorem pathValidB_cons (c : ConnCtx) (p : Int × Int) (a : Fin 4) (ms : List (Fin 4)) :
    pathValidB c p (a :: ms) =
      (isFree c (stepPos p a).1 (stepPos p a).2 && pathValidB c (stepPos p a) ms) := rfl

theorem pathValidB_append_single (c : ConnCtx) (p : Int × Int) (ms : List (Fin 4))
    (d : Fin 4) :
    pathValidB c p (ms ++ [d]) =
      (pathValidB c p ms &&
        isFree c (pathPos p (ms ++ [d])).1 (pathPos p (ms ++ [d])).2) := by
  induction ms generalizing p with
  | nil => simp [pathValidB, pathPos, stepPos]
  | cons a ms ih =>
    have h1 : (a :: ms) ++ [d] = a :: (ms ++ [d]) := by simp
    rw [h1, pathValidB_cons, ih (stepPos p a), pathValidB_cons, pathPos_cons,
      Bool.and_assoc]

theorem countChanges_cons_cons (a b : Fin 4) (r : List (Fin 4)) :
    countChanges (a :: b :: r) = (if a = b then 0 else 1) + countChanges (b :: r) := rfl

theorem countChanges_append_single (ms : List (Fin 4)) (d : Fin 4) :
    countChanges (ms ++ [d]) = countChanges ms + costOf ms.getLast? d := by
  induction ms with
  | nil => simp [countChanges, costOf]
  | cons a ms ih =>
    cases ms with
    | nil => simp [countChanges, costOf]
    | cons b r =>
      have h1 : (a :: b :: r) ++ [d] = a :: b :: (r ++ [d]) := by simp
      rw [h1, countChanges_cons_cons a b (r ++ [d]), countChanges_cons_cons a b r]
      have h2 : b :: (r ++ [d]) = (b :: r) ++ [d] := by simp
      rw [h2, ih]
      have h3 : (a :: b :: r).getLast? = (b :: r).getLast? := by
        simp [List.getLast?_cons_cons]
      rw [h3]
      omega

theorem countChanges_le_append (ms ns : List (Fin 4)) :
    countChanges ms ≤ countChanges (ms ++ ns) := by
  induction ns using List.reverseRecOn with
  | nil => simp
  | append_singleton ns d ih =>
    rw [← List.append_assoc, countChanges_append_single]
    omega

theorem countChanges_take_le (ms : List (Fin 4)) (k : Nat) :
    countChanges (ms.take k) ≤ countChanges ms := by
  have h := countChanges_le_append (ms.take k) (ms.drop k)
  rwa [List.take_append_drop] at h

theorem pathValidB_take (c : ConnCtx) (p : Int × Int) (ms : List (Fin 4)) (k : Nat)
    (h : pathValidB c p ms = true) : pathValidB c p (ms.take k) = true := by
  induction ms generalizing p k with
  | nil => simp [pathValidB]
  | cons a ms ih =>
    cases k with
    | zero => simp [pathValidB]
    | succ k =>
      simp only [List.take_succ_cons, pathValidB, Bool.and_eq_true] at h ⊢
      exact ⟨h.1, ih (stepPos p a) k h.2⟩

theorem relax_pushes (c : ConnCtx) (mt : Nat) (e : Entry) (acc : Seen × List Entry)
    (d : Fin 4) :
    ∀ p ∈ (relax c mt e acc d).2, p ∈ acc.2 ∨
      (p = ⟨e.x + (dirVec d).1, e.y + (dirVec d).2, some d, e.turns + costOf e.dir d⟩ ∧
        e.turns + costOf e.dir d ≤ mt ∧
        isFree c (e.x + (dirVec d).1) (e.y + (dirVec d).2) = true) := by
  intro p hp
  unfold relax at hp
  by_cases h1 : mt < e.turns + costOf e.dir d
  · rw [if_pos h1] at hp; exact Or.inl hp
  · rw [if_neg h1] at hp
    by_cases h2 : isFree c (e.x + (dirVec d).1) (e.y + (dirVec d).2) = false
    · rw [if_pos h2] at hp; exact Or.inl hp
    · rw [if_neg h2] at hp
      have hfree : isFree c (e.x + (dirVec d).1) (e.y + (dirVec d).2) = true := by
        revert h2; cases isFree c (e.x + (dirVec d).1) (e.y + (dirVec d).2) <;> simp
      cases hfind : seenFind acc.1 ⟨e.x + (dirVec d).1, e.y + (dirVec d).2, some d⟩ with
      | some q =>
        simp only [hfind] at hp
        by_cases hle : q ≤ e.turns + costOf e.dir d
        · rw [if_pos hle] at hp; exact Or.inl hp
        · rw [if_neg hle] at hp
          simp only [List.mem_append, List.mem_singleton] at hp
          rcases hp with hp | hp
          · exact Or.inl hp
          · exact Or.inr ⟨hp, Nat.le_of_not_lt h1, hfree⟩
      | none =>
        simp only [hfind] at hp
        simp only [List.mem_append, List.mem_singleton] at hp
        rcases hp with hp | hp
        · exact Or.inl hp
        · exact Or.inr ⟨hp, Nat.le_of_not_lt h1, hfree⟩

theorem foldl_relax_pushes (c : ConnCtx) (mt : Nat) (e : Entry) (L : List (Fin 4))
    (acc : Seen × List Entry) :
    ∀ p ∈ (L.foldl (relax c mt e) acc).2, p ∈ acc.2 ∨
      ∃ d : Fin 4,
        p = ⟨e.x + (dirVec d).1, e.y + (dirVec d).2, some d, e.turns + costOf e.dir d⟩ ∧
        e.turns + costOf e.dir d ≤ mt ∧
        isFree c (e.x + (dirVec d).1) (e.y + (dirVec d).2) = true := by
  induction L generalizing acc with
  | nil => intro p hp; exact Or.inl hp
  | cons d L ih =>
    intro p hp
    rcases ih (relax c mt e acc d) p hp with h | h
    · rcases relax_pushes c mt e acc d p h with h' | h'
      · exact Or.inl h'
      · exact Or.inr ⟨d, h'⟩
    · exact Or.inr h

theorem expandE_pushes (c : ConnCtx) (mt : Nat) (e : Entry) (s : Seen) :
    ∀ p ∈ (expandE c mt e s).2,
      ∃ d : Fin 4,
        p = ⟨e.x + (dirVec d).1, e.y + (dirVec d).2, some d, e.turns + costOf e.dir d⟩ ∧
        e.turns + costOf e.dir d ≤ mt ∧
        isFree c (e.x + (dirVec d).1) (e.y + (dirVec d).2) = true := by
  intro p hp
  rcases foldl_relax_pushes c mt e (List.finRange 4) (s, []) p hp with h | h
  · simp at h
  · exact h

theorem push_real (c : ConnCtx) (mt : Nat) (start : Int × Int) (e : Entry)
    (he : entryReal c mt start e) (d : Fin 4)
    (hnt : e.turns + costOf e.dir d ≤ mt)
    (hfree : isFree c (e.x + (dirVec d).1) (e.y + (dirVec d).2) = true) :
    entryReal c mt start
      ⟨e.x + (dirVec d).1, e.y + (dirVec d).2, some d, e.turns + costOf e.dir d⟩ := by
  rcases he with ⟨ms, hpos, hvalid, hcc, hlast, _⟩
  refine ⟨ms ++ [d], ?_, ?_, ?_, ?_, hnt⟩
  · rw [pathPos_append, hpos]
    simp [pathPos, pathValidB, stepPos]
  · rw [pathValidB_append_single, hvalid]
    have hend : pathPos start (ms ++ [d]) =
        (e.x + (dirVec d).1, e.y + (dirVec d).2) := by
      rw [pathPos_append, hpos]
      simp [pathPos, stepPos]
    rw [hend]
    simpa using hfree
  · rw [countChanges_append_single, hcc, hlast]
  · simp

theorem bfs_sound (c : ConnCtx) (mt : Nat) (start : Int × Int) :
    ∀ (f : Nat) (q : List Entry) (s : Seen) (r : Bool) (S : Seen),
      (∀ e ∈ q, entryReal c mt start e) →
      bfsLoop c mt f q s = some (r, S) → r = true →
      connSpec c mt start := by
  intro f
  induction f with
  | zero => intro q s r S _ hrun _; simp [bfsLoop] at hrun
  | succ f ih =>
    intro q s r S hq hrun hr
    match q with
    | [] =>
      simp [bfsLoop] at hrun
      rw [hrun.1] at hr
      exact absurd hr (by simp)
    | e :: q =>
      rw [bfsLoop] at hrun
      by_cases hhit : e.x = c.dest.1 ∧ e.y = c.dest.2 ∧ e.turns ≤ mt
      · rcases hq e (List.mem_cons_self e q) with ⟨ms, hpos, hvalid, hcc, _, hle⟩
        refine ⟨ms, ?_, hvalid, by omega⟩
        rw [hpos]
        have : c.dest = (c.dest.1, c.dest.2) := rfl
        rw [this, hhit.1, hhit.2.1]
      · rw [if_neg hhit] at hrun
        apply ih (q ++ (expandE c mt e s).2) (expandE c mt e s).1 r S _ hrun hr
        intro p hp
        rcases List.mem_append.mp hp with h | h
        · exact hq p (List.mem_cons_of_mem e h)
        · rcases expandE_pushes c mt e s p h with ⟨d, rfl, hnt, hfree⟩
          exact push_real c mt start e (hq e (List.mem_cons_self e q)) d hnt hfree

theorem seenRefines_refl (s : Seen) : seenRefines s s :=
  fun _ v h => ⟨v, le_refl v, h⟩

theorem seenRefines_trans {S s' s : Seen} (h1 : seenRefines S s') (h2 : seenRefines s' s) :
    seenRefines S s := by
  intro k v h
  rcases h2 k v h with ⟨w, hw, hfind⟩
  rcases h1 k w hfind with ⟨w', hw', hfind'⟩
  exact ⟨w', le_trans hw' hw, hfind'⟩

theorem expandedIn_mono {c : ConnCtx} {mt : Nat} {S s : Seen} {k : St} {v : Nat}
    (href : seenRefines S s) (h : expandedIn c mt s k v) : expandedIn c mt S k v := by
  intro d hfree hnt
  rcases h d hfree hnt with ⟨w, hw, hfind⟩
  rcases href _ w hfind with ⟨w', hw', hfind'⟩
  exact ⟨w', le_trans hw' hw, hfind'⟩

theorem relax_refines (c : ConnCtx) (mt : Nat) (e : Entry) (acc : Seen × List Entry)
    (d : Fin 4) : seenRefines (relax c mt e acc d).1 acc.1 := by
  unfold relax
  by_cases h1 : mt < e.turns + costOf e.dir d
  · rw [if_pos h1]; exact seenRefines_refl _
  · rw [if_neg h1]
    by_cases h2 : isFree c (e.x + (dirVec d).1) (e.y + (dirVec d).2) = false
    · rw [if_pos h2]; exact seenRefines_refl _
    · rw [if_neg h2]
      cases hfind : seenFind acc.1 ⟨e.x + (dirVec d).1, e.y + (dirVec d).2, some d⟩ with
      | some p =>
        by_cases hle : p ≤ e.turns + costOf e.dir d
        · simp only [hfind, hle, if_true]; exact seenRefines_refl _
        · simp only [hfind, hle, if_false]
          intro k v hk
          by_cases hkey : (⟨e.x + (dirVec d).1, e.y + (dirVec d).2, some d⟩ : St) = k
          · refine ⟨e.turns + costOf e.dir d, ?_, ?_⟩
            · rw [← hkey, hfind] at hk
              have hv := Option.some.inj hk
              omega
            · rw [seenFind_cons, if_pos hkey]
          · exact ⟨v, le_refl v, by rw [seenFind_cons, if_neg hkey]; exact hk⟩
      | none =>
        simp only [hfind]
        intro k v hk
        by_cases hkey : (⟨e.x + (dirVec d).1, e.y + (dirVec d).2, some d⟩ : St) = k
        · rw [← hkey, hfind] at hk
          exact absurd hk (by simp)
        · exact ⟨v, le_refl v, by rw [seenFind_cons, if_neg hkey]; exact hk⟩

theorem foldl_relax_refines (c : ConnCtx) (mt : Nat) (e : Entry) (L : List (Fin 4))
    (acc : Seen × List Entry) : seenRefines (L.foldl (relax c mt e) acc).1 acc.1 := by
  induction L generalizing acc with
  | nil => exact seenRefines_refl _
  | cons d L ih =>
    exact seenRefines_trans (ih (relax c mt e acc d)) (relax_refines c mt e acc d)

theorem expandE_refines (c : ConnCtx) (mt : Nat) (e : Entry) (s : Seen) :
    seenRefines (expandE c mt e s).1 s :=
  foldl_relax_refines c mt e (List.finRange 4) (s, [])

theorem relax_find_new (c : ConnCtx) (mt : Nat) (e : Entry) (acc : Seen × List Entry)
    (d : Fin 4) :
    ∀ k v, seenFind (relax c mt e acc d).1 k = some v →
      seenFind acc.1 k = some v ∨ mkEntry k v ∈ (relax c mt e acc d).2 := by
  intro k v hk
  unfold relax at hk ⊢
  by_cases h1 : mt < e.turns + costOf e.dir d
  · rw [if_pos h1] at hk ⊢; exact Or.inl hk
  · rw [if_neg h1] at hk ⊢
    by_cases h2 : isFree c (e.x + (dirVec d).1) (e.y + (dirVec d).2) = false
    · rw [if_pos h2] at hk ⊢; exact Or.inl hk
    · rw [if_neg h2] at hk ⊢
      cases hfind : seenFind acc.1 ⟨e.x + (dirVec d).1, e.y + (dirVec d).2, some d⟩ with
      | some p =>
        simp only [hfind] at hk ⊢
        by_cases hle : p ≤ e.turns + costOf e.dir d
        · rw [if_pos hle] at hk ⊢; exact Or.inl hk
        · rw [if_neg hle] at hk ⊢
          rw [seenFind_cons] at hk
          by_cases hkey : (⟨e.x + (dirVec d).1, e.y + (dirVec d).2, some d⟩ : St) = k
          · rw [if_pos hkey] at hk
            apply Or.inr
            simp only [List.mem_append, List.mem_singleton]
            apply Or.inr
            cases hk
            rw [← hkey]
            rfl
          · rw [if_neg hkey] at hk; exact Or.inl hk
      | none =>
        simp only [hfind] at hk ⊢
        rw [seenFind_cons] at hk
        by_cases hkey : (⟨e.x + (dirVec d).1, e.y + (dirVec d).2, some d⟩ : St) = k
        · rw [if_pos hkey] at hk
          apply Or.inr
          simp only [List.mem_append, List.mem_singleton]
          apply Or.inr
          cases hk
          rw [← hkey]
          rfl
        · rw [if_neg hkey] at hk; exact Or.inl hk

theorem relax_pushes_mono (c : ConnCtx) (mt : Nat) (e : Entry) (acc : Seen × List Entry)
    (d : Fin 4) : ∀ p ∈ acc.2, p ∈ (relax c mt e acc d).2 := by
  intro p hp
  unfold relax
  by_cases h1 : mt < e.turns + costOf e.dir d
  · rw [if_pos h1]; exact hp
  · rw [if_neg h1]
    by_cases h2 : isFree c (e.x + (dirVec d).1) (e.y + (dirVec d).2) = false
    · rw [if_pos h2]; exact hp
    · rw [if_neg h2]
      cases hfind : seenFind acc.1 ⟨e.x + (dirVec d).1, e.y + (dirVec d).2, some d⟩ with
      | some q =>
        simp only [hfind]
        by_cases hle : q ≤ e.turns + costOf e.dir d
        · rw [if_pos hle]; exact hp
        · rw [if_neg hle]
          exact List.mem_append_left _ hp
      | none =>
        simp only [hfind]
        exact List.mem_append_left _ hp

theorem foldl_relax_pushes_mono (c : ConnCtx) (mt : Nat) (e : Entry) (L : List (Fin 4))
    (acc : Seen × List Entry) :
    ∀ p ∈ acc.2, p ∈ (L.foldl (relax c mt e) acc).2 := by
  induction L generalizing acc with
  | nil => intro p hp; exact hp
  | cons d L ih =>
    intro p hp
    exact ih (relax c mt e acc d) p (relax_pushes_mono c mt e acc d p hp)

theorem foldl_relax_find_new (c : ConnCtx) (mt : Nat) (e : Entry) (L : List (Fin 4))
    (acc : Seen × List Entry) :
    ∀ k v, seenFind (L.foldl (relax c mt e) acc).1 k = some v →
      seenFind acc.1 k = some v ∨ mkEntry k v ∈ (L.foldl (relax c mt e) acc).2 := by
  induction L generalizing acc with
  | nil => intro k v h; exact Or.inl h
  | cons d L ih =>
    intro k v h
    rcases ih (relax c mt e acc d) k v h with h' | h'
    · rcases relax_find_new c mt e acc d k v h' with h'' | h''
      · exact Or.inl h''
      · exact Or.inr (foldl_relax_pushes_mono c mt e L (relax c mt e acc d) _ h'')
    · exact Or.inr h'

theorem relax_key_covered (c : ConnCtx) (mt : Nat) (e : Entry) (acc : Seen × List Entry)
    (d : Fin 4) (hfree : isFree c (e.x + (dirVec d).1) (e.y + (dirVec d).2) = true)
    (hnt : e.turns + costOf e.dir d ≤ mt) :
    ∃ w, w ≤ e.turns + costOf e.dir d ∧
      seenFind (relax c mt e acc d).1 ⟨e.x + (dirVec d).1, e.y + (dirVec d).2, some d⟩ =
        some w := by
  unfold relax
  rw [if_neg (by omega), if_neg (by rw [hfree]; simp)]
  cases hfind : seenFind acc.1 ⟨e.x + (dirVec d).1, e.y + (dirVec d).2, some d⟩ with
  | some p =>
    simp only [hfind]
    by_cases hle : p ≤ e.turns + costOf e.dir d
    · rw [if_pos hle]
      exact ⟨p, hle, hfind⟩
    · rw [if_neg hle]
      exact ⟨e.turns + costOf e.dir d, le_refl _, by rw [seenFind_cons, if_pos rfl]⟩
  | none =>
    simp only [hfind]
    exact ⟨e.turns + costOf e.dir d, le_refl _, by rw [seenFind_cons, if_pos rfl]⟩

theorem foldl_relax_covered (c : ConnCtx) (mt : Nat) (e : Entry) (L : List (Fin 4))
    (acc : Seen × List Entry) :
    ∀ d ∈ L, isFree c (e.x + (dirVec d).1) (e.y + (dirVec d).2) = true →
      e.turns + costOf e.dir d ≤ mt →
      ∃ w, w ≤ e.turns + costOf e.dir d ∧
        seenFind (L.foldl (relax c mt e) acc).1
          ⟨e.x + (dirVec d).1, e.y + (dirVec d).2, some d⟩ = some w := by
  induction L generalizing acc with
  | nil => intro d hd; simp at hd
  | cons d' L ih =>
    intro d hd hfree hnt
    rcases List.mem_cons.mp hd with rfl | hd'
    · rcases relax_key_covered c mt e acc d hfree hnt with ⟨w, hw, hfindw⟩
      rcases foldl_relax_refines c mt e L (relax c mt e acc d) _ w hfindw with ⟨w', hw', hf'⟩
      exact ⟨w', le_trans hw' hw, hf'⟩
    · exact ih (relax c mt e acc d') d hd' hfree hnt

theorem expandE_expanded (c : ConnCtx) (mt : Nat) (e : Entry) (s : Seen) :
    expandedIn c mt (expandE c mt e s).1 e.st e.turns := by
  intro d hfree hnt
  exact foldl_relax_covered c mt e (List.finRange 4) (s, []) d (List.mem_finRange d)
    hfree hnt

theorem bfs_complete (c : ConnCtx) (mt : Nat) :
    ∀ (f : Nat) (q : List Entry) (s S : Seen),
      bfsLoop c mt f q s = some (false, S) →
      (∀ e ∈ q, e.turns ≤ mt) →
      (∀ k v, seenFind s k = some v → mkEntry k v ∈ q ∨ expandedIn c mt s k v) →
      (∀ k v, seenFind s k = some v → (k.x, k.y) = c.dest → mkEntry k v ∈ q) →
      seenRefines S s ∧ (∀ k v, seenFind S k = some v → expandedIn c mt S k v) ∧
        (∀ k v, seenFind S k = some v → (k.x, k.y) ≠ c.dest) := by
  intro f
  induction f with
  | zero => intro q s S hrun; simp [bfsLoop] at hrun
  | succ f ih =>
    intro q s S hrun hq hinv hnd
    match q with
    | [] =>
      simp only [bfsLoop, Option.some.injEq, Prod.mk.injEq] at hrun
      rcases hrun with ⟨_, rfl⟩
      refine ⟨seenRefines_refl s, ?_, ?_⟩
      · intro k v hk
        rcases hinv k v hk with h | h
        · simp at h
        · exact h
      · intro k v hk hdest
        have := hnd k v hk hdest
        simp at this
    | e :: q =>
      rw [bfsLoop] at hrun
      by_cases hhit : e.x = c.dest.1 ∧ e.y = c.dest.2 ∧ e.turns ≤ mt
      · rw [if_pos hhit] at hrun
        simp at hrun
      · rw [if_neg hhit] at hrun
        have hql : ∀ p ∈ q ++ (expandE c mt e s).2, p.turns ≤ mt := by
          intro p hp
          rcases List.mem_append.mp hp with h | h
          · exact hq p (List.mem_cons_of_mem e h)
          · rcases expandE_pushes c mt e s p h with ⟨d, rfl, hnt, _⟩
            exact hnt
        have hinv' : ∀ k v, seenFind (expandE c mt e s).1 k = some v →
            mkEntry k v ∈ q ++ (expandE c mt e s).2 ∨
              expandedIn c mt (expandE c mt e s).1 k v := by
          intro k v hk
          rcases foldl_relax_find_new c mt e (List.finRange 4) (s, []) k v hk with h | h
          · rcases hinv k v h with hmem | hexp
            · rcases List.mem_cons.mp hmem with heq | hmem'
              · apply Or.inr
                have hk1 : k = e.st := by
                  rw [← heq]; rfl
                have hv1 : v = e.turns := by
                  rw [← heq]; rfl
                rw [hk1, hv1]
                exact expandE_expanded c mt e s
              · exact Or.inl (List.mem_append_left _ hmem')
            · exact Or.inr (expandedIn_mono (expandE_refines c mt e s) hexp)
          · exact Or.inl (List.mem_append_right _ h)
        have hnd' : ∀ k v, seenFind (expandE c mt e s).1 k = some v →
            (k.x, k.y) = c.dest → mkEntry k v ∈ q ++ (expandE c mt e s).2 := by
          intro k v hk hdest
          rcases foldl_relax_find_new c mt e (List.finRange 4) (s, []) k v hk with h | h
          · rcases List.mem_cons.mp (hnd k v h hdest) with heq | hmem'
            · exfalso
              apply hhit
              refine ⟨?_, ?_, hq e (List.mem_cons_self e q)⟩
              · rw [← heq]; exact congrArg Prod.fst hdest
              · rw [← heq]; exact congrArg Prod.snd hdest
            · exact List.mem_append_left _ hmem'
          · exact List.mem_append_right _ h
        rcases ih _ _ _ hrun hql hinv' hnd' with ⟨href, hclosed, hnodest⟩
        exact ⟨seenRefines_trans href (expandE_refines c mt e s), hclosed, hnodest⟩

theorem closed_walk (c : ConnCtx) (mt : Nat) (S : Seen) (start : Int × Int)
    (w0 : Nat) (hw0 : w0 ≤ 0)
    (h0 : seenFind S ⟨start.1, start.2, none⟩ = some w0)
    (hclosed : ∀ k v, seenFind S k = some v → expandedIn c mt S k v) :
    ∀ ms : List (Fin 4), ms ≠ [] → pathValidB c start ms = true →
      countChanges ms ≤ mt →
      ∃ w l, ms.getLast? = some l ∧ w ≤ countChanges ms ∧
        seenFind S ⟨(pathPos start ms).1, (pathPos start ms).2, some l⟩ = some w := by
  intro ms
  induction ms using List.reverseRecOn with
  | nil => intro h; exact absurd rfl h
  | append_singleton ns d ih =>
    intro _ hvalid hcc
    rcases List.eq_nil_or_concat ns with rfl | hconcat
    · -- single move out of the start state
      simp only [List.nil_append] at hvalid hcc ⊢
      have hfree : isFree c (stepPos start d).1 (stepPos start d).2 = true := by
        rw [pathValidB_cons] at hvalid
        simp only [Bool.and_eq_true] at hvalid
        exact hvalid.1
      rcases hclosed ⟨start.1, start.2, none⟩ w0 h0 d hfree (by simp [costOf]; omega)
        with ⟨w, hwle, hfind⟩
      refine ⟨w, d, by simp, ?_, ?_⟩
      · have hc0 : countChanges [d] = 0 := rfl
        rw [hc0]
        simp [costOf] at hwle
        omega
      · have hp : pathPos start [d] = (start.1 + (dirVec d).1, start.2 + (dirVec d).2) := rfl
        rw [hp]
        exact hfind
    · -- extend an already-recorded route by one move
      have hns : ns ≠ [] := by
        rcases hconcat with ⟨L, b, rfl⟩
        simp
      have hvalid' := hvalid
      rw [pathValidB_append_single] at hvalid'
      simp only [Bool.and_eq_true] at hvalid'
      have hvns : pathValidB c start ns = true := hvalid'.1
      have hfree : isFree c (pathPos start (ns ++ [d])).1 (pathPos start (ns ++ [d])).2
          = true := hvalid'.2
      have hccns : countChanges ns ≤ mt :=
        le_trans (countChanges_le_append ns [d]) hcc
      rcases ih hns hvns hccns with ⟨w, l, hlast, hwle, hfind⟩
      have hccfull : countChanges (ns ++ [d]) = countChanges ns + costOf (some l) d := by
        rw [countChanges_append_single, hlast]
      have hstep : pathPos start (ns ++ [d]) =
          ((pathPos start ns).1 + (dirVec d).1, (pathPos start ns).2 + (dirVec d).2) := by
        rw [pathPos_append]
        rfl
      have hfreek : isFree c ((pathPos start ns).1 + (dirVec d).1)
          ((pathPos start ns).2 + (dirVec d).2) = true := by
        rw [hstep] at hfree
        exact hfree
      rw [hccfull] at hcc
      have hcost : w + costOf (some l) d ≤ mt := by omega
      rcases hclosed ⟨(pathPos start ns).1, (pathPos start ns).2, some l⟩ w hfind d
        hfreek hcost with ⟨w', hw'le, hfind'⟩
      have hw'le' : w' ≤ w + costOf (some l) d := hw'le
      refine ⟨w', d, by simp, ?_, ?_⟩
      · rw [hccfull]
        omega
      · rw [hstep]
        exact hfind'

theorem bfsLoop_init_characterizes (c : ConnCtx) (mt : Nat) (start : Int × Int)
    (r : Bool) (S : Seen)
    (hrun : bfsLoop c mt (connFuel c mt) [⟨start.1, start.2, none, 0⟩]
      [(⟨start.1, start.2, none⟩, 0)] = some (r, S)) :
    (r = true ↔ connSpec c mt start) := by
  constructor
  · intro hr
    apply bfs_sound c mt start _ _ _ _ _ _ hrun hr
    intro e he
    simp only [List.mem_singleton] at he
    subst he
    exact ⟨[], rfl, rfl, rfl, rfl, Nat.zero_le mt⟩
  · intro hspec
    by_contra hr
    have hrf : r = false := by
      cases r
      · rfl
      · exact absurd rfl hr
    subst hrf
    have hcomp := bfs_complete c mt (connFuel c mt) _ _ _ hrun
      (by intro e he; simp only [List.mem_singleton] at he; subst he; exact Nat.zero_le mt)
      (by
        intro k v hk
        rw [show ([(⟨start.1, start.2, none⟩, 0)] : Seen) = [(⟨start.1, start.2, none⟩, 0)]
          from rfl] at hk
        rw [seenFind_cons] at hk
        by_cases hkey : (⟨start.1, start.2, none⟩ : St) = k
        · rw [if_pos hkey] at hk
          apply Or.inl
          cases hk
          rw [← hkey]
          simp [mkEntry]
        · rw [if_neg hkey] at hk
          simp [seenFind] at hk)
      (by
        intro k v hk _
        rw [seenFind_cons] at hk
        by_cases hkey : (⟨start.1, start.2, none⟩ : St) = k
        · rw [if_pos hkey] at hk
          cases hk
          rw [← hkey]
          simp [mkEntry]
        · rw [if_neg hkey] at hk
          simp [seenFind] at hk)
    rcases hcomp with ⟨href, hclosed, hnodest⟩
    rcases href ⟨start.1, start.2, none⟩ 0 (by rw [seenFind_cons, if_pos rfl])
      with ⟨w0, hw0, hfind0⟩
    rcases hspec with ⟨ms, hpos, hvalid, hcc⟩
    rcases List.eq_nil_or_concat ms with rfl | hconcat
    · -- the empty route: the start cell is the destination
      have : (start.1, start.2) = c.dest := hpos
      exact hnodest _ _ hfind0 this
    · have hne : ms ≠ [] := by
        rcases hconcat with ⟨L, b, rfl⟩
        simp
      rcases closed_walk c mt S start w0 hw0 hfind0 hclosed ms hne hvalid hcc
        with ⟨w, l, _, _, hfind⟩
      apply hnodest _ _ hfind
      rw [hpos]

theorem dirVec_flipDir : ∀ d : Fin 4,
    dirVec (flipDir d) = (-(dirVec d).1, -(dirVec d).2) := by
  decide

theorem flipDir_inj : ∀ a b : Fin 4, flipDir a = flipDir b ↔ a = b := by
  decide

theorem pathPos_eq_sum (p : Int × Int) (ms : List (Fin 4)) :
    pathPos p ms = (p.1 + (sumVec ms).1, p.2 + (sumVec ms).2) := by
  induction ms generalizing p with
  | nil => simp [pathPos, sumVec]
  | cons d ms ih =>
    rw [pathPos_cons, ih]
    show ((stepPos p d).1 + (sumVec ms).1, (stepPos p d).2 + (sumVec ms).2) =
      (p.1 + (sumVec (d :: ms)).1, p.2 + (sumVec (d :: ms)).2)
    show (p.1 + (dirVec d).1 + (sumVec ms).1, p.2 + (dirVec d).2 + (sumVec ms).2) =
      (p.1 + ((dirVec d).1 + (sumVec ms).1), p.2 + ((dirVec d).2 + (sumVec ms).2))
    rw [Prod.mk.injEq]
    constructor <;> ring

theorem sumVec_append (ms ns : List (Fin 4)) :
    sumVec (ms ++ ns) =
      ((sumVec ms).1 + (sumVec ns).1, (sumVec ms).2 + (sumVec ns).2) := by
  induction ms with
  | nil => simp [sumVec]
  | cons d ms ih =>
    show ((dirVec d).1 + (sumVec (ms ++ ns)).1, (dirVec d).2 + (sumVec (ms ++ ns)).2) = _
    rw [ih]
    show _ = (((dirVec d).1 + (sumVec ms).1) + (sumVec ns).1,
      ((dirVec d).2 + (sumVec ms).2) + (sumVec ns).2)
    rw [Prod.mk.injEq]
    constructor <;> ring

theorem sumVec_reverse (ms : List (Fin 4)) : sumVec ms.reverse = sumVec ms := by
  induction ms with
  | nil => rfl
  | cons d ms ih =>
    rw [List.reverse_cons, sumVec_append, ih]
    show _ = ((dirVec d).1 + (sumVec ms).1, (dirVec d).2 + (sumVec ms).2)
    show ((sumVec ms).1 + ((dirVec d).1 + (sumVec []).1),
      (sumVec ms).2 + ((dirVec d).2 + (sumVec []).2)) = _
    show ((sumVec ms).1 + ((dirVec d).1 + 0), (sumVec ms).2 + ((dirVec d).2 + 0)) = _
    rw [Prod.mk.injEq]
    constructor <;> ring

theorem sumVec_map_flip (ms : List (Fin 4)) :
    sumVec (ms.map flipDir) = (-(sumVec ms).1, -(sumVec ms).2) := by
  induction ms with
  | nil => rfl
  | cons d ms ih =>
    rw [List.map_cons]
    show ((dirVec (flipDir d)).1 + (sumVec (ms.map flipDir)).1,
      (dirVec (flipDir d)).2 + (sumVec (ms.map flipDir)).2) = _
    rw [ih, dirVec_flipDir]
    show _ = (-((dirVec d).1 + (sumVec ms).1), -((dirVec d).2 + (sumVec ms).2))
    rw [Prod.mk.injEq]
    constructor <;> ring

theorem pathPos_rev (a : Int × Int) (ms : List (Fin 4)) :
    pathPos (pathPos a ms) ((ms.map flipDir).reverse) = a := by
  rw [pathPos_eq_sum, pathPos_eq_sum, sumVec_reverse, sumVec_map_flip, Prod.ext_iff]
  constructor <;> simp

theorem countChanges_map_flip (ms : List (Fin 4)) :
    countChanges (ms.map flipDir) = countChanges ms := by
  induction ms with
  | nil => rfl
  | cons a ms ih =>
    cases ms with
    | nil => rfl
    | cons b r =>
      rw [List.map_cons, List.map_cons, countChanges_cons_cons,
        ← List.map_cons flipDir b r, ih, countChanges_cons_cons]
      have hif : (if flipDir a = flipDir b then (0 : Nat) else 1) =
          (if a = b then 0 else 1) := by
        by_cases h : a = b
        · simp [h]
        · have hne : flipDir a ≠ flipDir b := fun hc => h ((flipDir_inj a b).mp hc)
          simp [h, hne]
      rw [hif]

theorem countChanges_reverse (ms : List (Fin 4)) :
    countChanges ms.reverse = countChanges ms := by
  induction ms with
  | nil => rfl
  | cons a ms ih =>
    rw [List.reverse_cons, countChanges_append_single, ih, List.getLast?_reverse]
    cases ms with
    | nil => rfl
    | cons b r =>
      rw [countChanges_cons_cons]
      show countChanges (b :: r) + costOf (some b) a = _
      unfold costOf
      by_cases h : a = b
      · simp [h]
      · have hba : ¬b = a := fun hc => h hc.symm
        simp only [h, hba, if_false]
        omega

theorem isFree_dest (c : ConnCtx) : isFree c c.dest.1 c.dest.2 = true := by
  unfold isFree
  rw [if_pos ⟨rfl, rfl⟩]

theorem isFree_swap (c c' : ConnCtx) (hw : c.width = c'.width) (hh : c.height = c'.height)
    (hocc : ∀ p, c.occ p = c'.occ p) (x y : Int) (h : isFree c x y = true)
    (hne : ¬(x = c.dest.1 ∧ y = c.dest.2)) : isFree c' x y = true := by
  unfold isFree at h ⊢
  rw [if_neg hne] at h
  by_cases hd' : x = c'.dest.1 ∧ y = c'.dest.2
  · rw [if_pos hd']
  · rw [if_neg hd', ← hw, ← hh, ← hocc (x, y)]
    exact h

theorem min_route_aux (c : ConnCtx) (start : Int × Int) :
    ∀ (n : Nat) (ms : List (Fin 4)), ms.length ≤ n → pathPos start ms = c.dest →
      pathValidB c start ms = true →
      ∃ ms', pathPos start ms' = c.dest ∧ pathValidB c start ms' = true ∧
        countChanges ms' ≤ countChanges ms ∧
        ∀ k, k < ms'.length → pathPos start (ms'.take k) ≠ c.dest := by
  intro n
  induction n with
  | zero =>
    intro ms hlen hpos hvalid
    have hnil : ms = [] := List.length_eq_zero.mp (Nat.le_zero.mp hlen)
    subst hnil
    exact ⟨[], hpos, hvalid, le_refl _, by intro k hk; simp at hk⟩
  | succ n ih =>
    intro ms hlen hpos hvalid
    by_cases hex : ∃ k, k < ms.length ∧ pathPos start (ms.take k) = c.dest
    · obtain ⟨k, hk, hkpos⟩ := hex
      have hlen' : (ms.take k).length ≤ n := by
        rw [List.length_take]
        omega
      obtain ⟨ms', h1, h2, h3, h4⟩ :=
        ih (ms.take k) hlen' hkpos (pathValidB_take c start ms k hvalid)
      exact ⟨ms', h1, h2, le_trans h3 (countChanges_take_le ms k), h4⟩
    · push_neg at hex
      exact ⟨ms, hpos, hvalid, le_refl _, hex⟩

theorem min_route (c : ConnCtx) (mt : Nat) (start : Int × Int) (h : connSpec c mt start) :
    ∃ ms, pathPos start ms = c.dest ∧ pathValidB c start ms = true ∧
      countChanges ms ≤ mt ∧
      ∀ k, k < ms.length → pathPos start (ms.take k) ≠ c.dest := by
  rcases h with ⟨ms, hpos, hvalid, hcc⟩
  obtain ⟨ms', h1, h2, h3, h4⟩ :=
    min_route_aux c start ms.length ms (le_refl _) hpos hvalid
  exact ⟨ms', h1, h2, le_trans h3 hcc, h4⟩

theorem stepPos_flip (p : Int × Int) (d : Fin 4) :
    stepPos (stepPos p d) (flipDir d) = p := by
  unfold stepPos
  rw [dirVec_flipDir d]
  rw [show p = (p.1, p.2) from rfl]
  rw [Prod.mk.injEq]
  constructor <;> simp

theorem rev_valid (c c' : ConnCtx) (hw : c.width = c'.width) (hh : c.height = c'.height)
    (hocc : ∀ p, c.occ p = c'.occ p) :
    ∀ (ms : List (Fin 4)) (a : Int × Int),
      isFree c' a.1 a.2 = true →
      pathPos a ms = c.dest →
      pathValidB c a ms = true →
      (∀ k, k < ms.length → pathPos a (ms.take k) ≠ c.dest) →
      pathValidB c' c.dest ((ms.map flipDir).reverse) = true := by
  intro ms
  induction ms with
  | nil => intro a _ _ _ _; rfl
  | cons d ms' ih =>
    intro a hfa hpos hvalid hmin
    have hrw : ((d :: ms').map flipDir).reverse =
        (ms'.map flipDir).reverse ++ [flipDir d] := by
      simp
    rw [hrw, pathValidB_append_single]
    have hend : pathPos c.dest ((ms'.map flipDir).reverse ++ [flipDir d]) = a := by
      rw [← hrw, ← hpos]
      exact pathPos_rev a (d :: ms')
    rw [hend]
    simp only [Bool.and_eq_true]
    refine ⟨?_, hfa⟩
    cases ms'h : ms' with
    | nil => rfl
    | cons d2 r =>
      rw [← ms'h]
      have hms'ne : ms' ≠ [] := by rw [ms'h]; simp
      have hvalid' := hvalid
      rw [pathValidB_cons] at hvalid'
      simp only [Bool.and_eq_true] at hvalid'
      have hpos' : pathPos (stepPos a d) ms' = c.dest := by
        rw [← pathPos_cons]
        exact hpos
      have hmin' : ∀ k, k < ms'.length → pathPos (stepPos a d) (ms'.take k) ≠ c.dest := by
        intro k hk
        have := hmin (k + 1) (by simp; omega)
        rw [List.take_succ_cons, pathPos_cons] at this
        exact this
      have hstepne : ¬((stepPos a d).1 = c.dest.1 ∧ (stepPos a d).2 = c.dest.2) := by
        have hlen1 : 1 < (d :: ms').length := by
          rw [ms'h]
          simp only [List.length_cons]
          omega
        have h1 := hmin 1 hlen1
        rw [show (d :: ms').take 1 = [d] from rfl] at h1
        intro hc
        apply h1
        have : pathPos a [d] = stepPos a d := rfl
        rw [this, show c.dest = (c.dest.1, c.dest.2) from rfl,
          show stepPos a d = ((stepPos a d).1, (stepPos a d).2) from rfl, hc.1, hc.2]
      have hfa' : isFree c' (stepPos a d).1 (stepPos a d).2 = true :=
        isFree_swap c c' hw hh hocc _ _ hvalid'.1 hstepne
      exact ih (stepPos a d) hfa' hpos' hvalid'.2 hmin'

theorem connSpec_symm (c c' : ConnCtx) (mt : Nat) (p : Int × Int)
    (hw : c.width = c'.width) (hh : c.height = c'.height)
    (hocc : ∀ x, c.occ x = c'.occ x) (hd' : c'.dest = p) :
    connSpec c mt p → connSpec c' mt c.dest := by
  intro hs
  obtain ⟨ms, hpos, hvalid, hcc, hmin⟩ := min_route c mt p hs
  cases msh : ms with
  | nil =>
    subst msh
    refine ⟨[], ?_, rfl, by simp [countChanges]⟩
    rw [hd', ← hpos]
    rfl
  | cons d r =>
    subst msh
    refine ⟨((d :: r).map flipDir).reverse, ?_, ?_, ?_⟩
    · rw [← hpos, pathPos_rev, hd']
    · apply rev_valid c c' hw hh hocc (d :: r) p _ hpos hvalid hmin
      rw [← hd']
      exact isFree_dest c'
    · rw [countChanges_reverse, countChanges_map_flip]
      exact hcc

/-!
Characterization and symmetry of `can_connect`.
-/
theorem occupiedMem_comm (tiles : List Tile) (t1 t2 : Tile) (x y : Int) :
    occupiedMem tiles t1 t2 x y = occupiedMem tiles t2 t1 x y := by
  unfold occupiedMem
  induction tiles with
  | nil => rfl
  | cons t ts ih =>
    simp only [List.any_cons]
    rw [ih, Bool.or_comm (tileEq t t1) (tileEq t t2)]

theorem canConnect_body (b : Board) (i j mt : Nat) (t1 t2 : Tile)
    (hi : b.tiles[i]? = some t1) (hj : b.tiles[j]? = some t2) :
    canConnect b i j mt =
      (if i = j then false
       else if t1.tileType ≠ t2.tileType then false
       else
         match bfsLoop (connCtx b t1 t2) mt (connFuel (connCtx b t1 t2) mt)
           [⟨t1.x, t1.y, none, 0⟩] [(⟨t1.x, t1.y, none⟩, 0)] with
         | some r => r.1
         | none => false) := by
  unfold canConnect
  rw [hi, hj]

theorem canConnect_true_iff (b : Board) (i j mt : Nat) (t1 t2 : Tile)
    (hi : b.tiles[i]? = some t1) (hj : b.tiles[j]? = some t2)
    (hij : i ≠ j) (hk : t1.tileType = t2.tileType) :
    (canConnect b i j mt = true ↔ connSpec (connCtx b t1 t2) mt (t1.x, t1.y)) := by
  rw [canConnect_body b i j mt t1 t2 hi hj, if_neg hij, if_neg (fun hne => hne hk)]
  cases hrun : bfsLoop (connCtx b t1 t2) mt (connFuel (connCtx b t1 t2) mt)
      [⟨t1.x, t1.y, none, 0⟩] [(⟨t1.x, t1.y, none⟩, 0)] with
  | none =>
    exfalso
    have := bfsLoop_isSome (connCtx b t1 t2) mt (connFuel (connCtx b t1 t2) mt)
      [⟨t1.x, t1.y, none, 0⟩] [(⟨t1.x, t1.y, none⟩, 0)]
      (connFuel_sufficient (connCtx b t1 t2) mt _ _)
    rw [hrun] at this
    simp at this
  | some rs =>
    obtain ⟨r, S⟩ := rs
    exact bfsLoop_init_characterizes (connCtx b t1 t2) mt (t1.x, t1.y) r S hrun

/-- Claim C5 auxiliary: the two contexts of `can_connect(a, b)` and
`can_connect(b, a)` agree on extent and occupancy and swap the endpoint
roles. -/
theorem connSpec_can_swap (b : Board) (t1 t2 : Tile) (mt : Nat)
    (h : connSpec (connCtx b t1 t2) mt (t1.x, t1.y)) :
    connSpec (connCtx b t2 t1) mt (t2.x, t2.y) := by
  have := connSpec_symm (connCtx b t1 t2) (connCtx b t2 t1) mt (t1.x, t1.y)
    rfl rfl (fun x => occupiedMem_comm b.tiles t1 t2 x.1 x.2) rfl h
  exact this

theorem canConnect_symm_core (b : Board) (i j mt : Nat) :
    canConnect b i j mt = canConnect b j i mt := by
  cases hi : b.tiles[i]? with
  | none =>
    cases hj : b.tiles[j]? with
    | none => unfold canConnect; rw [hi, hj]
    | some t2 => unfold canConnect; rw [hi, hj]
  | some t1 =>
    cases hj : b.tiles[j]? with
    | none => unfold canConnect; rw [hi, hj]
    | some t2 =>
      by_cases hij : i = j
      · subst hij
        rfl
      · by_cases hk : t1.tileType = t2.tileType
        · rw [Bool.eq_iff_iff,
            canConnect_true_iff b i j mt t1 t2 hi hj hij hk,
            canConnect_true_iff b j i mt t2 t1 hj hi (Ne.symm hij) hk.symm]
          constructor
          · exact connSpec_can_swap b t1 t2 mt
          · exact connSpec_can_swap b t2 t1 mt
        · rw [canConnect_body b i j mt t1 t2 hi hj, if_neg hij, if_pos hk,
            canConnect_body b j i mt t2 t1 hj hi, if_neg (Ne.symm hij),
            if_pos (fun hc => hk hc.symm)]

/-!
Claim C2 — the occupancy set of `can_connect`.
-/
/-- Claim C2, counterexample: on a board holding a third non-removed tile of
the endpoints' kind at `(9, 9)`, the claimed occupancy set (all non-removed
tiles except the two endpoints by identity) contains `(9, 9)`, but the set
computed by `can_connect` omits it: tuple membership `t not in (tile1, tile2)`
uses the kind-based `Tile.__eq__`. -/
theorem occupied_set_cex :
    occupiedMem
      [⟨TileType.BAMBOO_1, 0, 0, 0, false, false, false⟩,
       ⟨TileType.BAMBOO_1, 5, 0, 0, false, false, false⟩,
       ⟨TileType.BAMBOO_1, 9, 9, 0, false, false, false⟩]
      ⟨TileType.BAMBOO_1, 0, 0, 0, false, false, false⟩
      ⟨TileType.BAMBOO_1, 5, 0, 0, false, false, false⟩ 9 9 = false ∧
    occupiedSpecMem
      [⟨TileType.BAMBOO_1, 0, 0, 0, false, false, false⟩,
       ⟨TileType.BAMBOO_1, 5, 0, 0, false, false, false⟩,
       ⟨TileType.BAMBOO_1, 9, 9, 0, false, false, false⟩] 0 1 9 9 = true := by
  decide

/-- Claim C2, amended: the occupancy set used by `can_connect(a, b)` is the
set of positions of the non-removed tiles whose kind differs from both
endpoints' kinds — every tile of the endpoints' kind is omitted, not only
`a` and `b`. -/
theorem occupiedMem_iff_kind_excluded (tiles : List Tile) (t1 t2 : Tile) (x y : Int) :
    occupiedMem tiles t1 t2 x y = true ↔
      ∃ t ∈ tiles, t.removed = false ∧ t.x = x ∧ t.y = y ∧
        t.tileType ≠ t1.tileType ∧ t.tileType ≠ t2.tileType := by
  simp only [occupiedMem, tileEq, List.any_eq_true, Bool.and_eq_true,
    Bool.not_eq_true', Bool.or_eq_false_iff, beq_iff_eq, beq_eq_false_iff_ne]
  constructor
  · rintro ⟨t, ht, ⟨⟨⟨hr, hx⟩, hy⟩, hk1, hk2⟩⟩
    exact ⟨t, ht, hr, hx, hy, hk1, hk2⟩
  · rintro ⟨t, ht, hr, hx, hy, hk1, hk2⟩
    exact ⟨t, ht, ⟨⟨⟨hr, hx⟩, hy⟩, hk1, hk2⟩⟩

/-!
Claim C3 — clicking a removed or unavailable tile.
-/
/-- Claim C3, counterexample: with tile 0 armed and tile 1 removed, clicking
tile 1 leaves the armed selection in place in both the extended and classic
click handlers — `click_tile` returns on `tile.removed` before the
disarm-on-blocked branch. -/
theorem click_removed_keeps_selection_cex :
    ((clickTileExt
        ⟨[⟨TileType.BAMBOO_1, 0, 0, 0, true, false, false⟩,
          ⟨TileType.DOT_1, 1, 0, 0, false, true, false⟩], 2, 1, some 0, false⟩
        1).selectedTile = some 0) ∧
    ((clickTileClassic
        ⟨[⟨TileType.BAMBOO_1, 0, 0, 0, true, false, false⟩,
          ⟨TileType.DOT_1, 1, 0, 0, false, true, false⟩], 2, 1, some 0, false⟩
        1).selectedTile = some 0) := by
  decide

/-- Claim C3, amended: clicking a removed tile is a complete no-op (an armed
selection stays armed); the disarm applies exactly when the clicked tile is
non-removed but unavailable (and, in the flet variant, the game is not
over): the armed tile's flag is cleared, `selected_tile` becomes `None`,
and nothing else changes. -/
theorem click_blocked_behaviour (b : Board) (i : Nat) (t : Tile)
    (ht : b.tiles[i]? = some t) :
    (t.removed = true → clickTileExt b i = b ∧ clickTileClassic b i = b) ∧
    (t.removed = false → b.gameOver = false → isTileAvailableExt b i = false →
      clickTileExt b i =
        match b.selectedTile with
        | some s =>
          { b with tiles := setTile b.tiles s fun u => { u with selected := false },
                   selectedTile := none }
        | none => b) ∧
    (t.removed = false → isTileAvailableClassicAt b i = false →
      clickTileClassic b i =
        match b.selectedTile with
        | some s =>
          { b with tiles := setTile b.tiles s fun u => { u with selected := false },
                   selectedTile := none }
        | none => b) := by
  refine ⟨?_, ?_, ?_⟩
  · intro hrem
    constructor
    · unfold clickTileExt
      simp only [ht]
      by_cases hg : b.gameOver
      · rw [if_pos hg]
      · rw [if_neg hg, if_pos hrem]
    · unfold clickTileClassic
      simp only [ht]
      rw [if_pos hrem]
  · intro hrem hg hav
    unfold clickTileExt
    simp only [ht]
    rw [if_neg (by rw [hg]; simp), if_neg (by rw [hrem]; simp),
      if_pos (by rw [hav]; simp)]
  · intro hrem hav
    unfold clickTileClassic
    simp only [ht]
    rw [if_neg (by rw [hrem]; simp), if_pos (by rw [hav]; simp)]

/-- Claim C3, witness for the amended theorem at a concrete armed board and
an unavailable (but non-removed) clicked tile. -/
theorem click_blocked_behaviour_witness :
    (clickTileExt
      ⟨[⟨TileType.BAMBOO_1, 0, 0, 0, true, false, false⟩,
        ⟨TileType.DOT_1, 1, 0, 0, false, true, false⟩,
        ⟨TileType.DOT_2, 1, 0, 1, false, false, false⟩,
        ⟨TileType.DOT_3, 1, 0, 2, false, false, false⟩], 2, 1, some 0, false⟩
      2).selectedTile = none := by
  have h := (click_blocked_behaviour
    ⟨[⟨TileType.BAMBOO_1, 0, 0, 0, true, false, false⟩,
      ⟨TileType.DOT_1, 1, 0, 0, false, true, false⟩,
      ⟨TileType.DOT_2, 1, 0, 1, false, false, false⟩,
      ⟨TileType.DOT_3, 1, 0, 2, false, false, false⟩], 2, 1, some 0, false⟩
    2 ⟨TileType.DOT_2, 1, 0, 1, false, false, false⟩ (by rfl)).2.1
    (by rfl) (by rfl) (by decide)
  rw [h]

/-!
Claim C10 — slotted tiles count as removed for `is_game_won`.
-/
/-- Claim C10: on a reachable two-tile board, parking the first tile sets
its `removed` flag while it sits in slot 0; after the second click both
tiles are in slots (their pair removal merely pending on the 0.3 s timer)
and `is_game_won()` already reports a win. -/
theorem slotted_counts_as_removed :
    ((tileClicked
        ⟨[⟨TileType.BAMBOO_1, 0, 0, 0, false, false, false⟩,
          ⟨TileType.BAMBOO_1, 1, 0, 0, false, false, false⟩],
         2, 1, [none, none, none], none, false, false⟩ 0).slots
      = [some 0, none, none]) ∧
    ((tileClicked
        ⟨[⟨TileType.BAMBOO_1, 0, 0, 0, false, false, false⟩,
          ⟨TileType.BAMBOO_1, 1, 0, 0, false, false, false⟩],
         2, 1, [none, none, none], none, false, false⟩ 0).tiles.countP
      (fun t => t.removed) = 1) ∧
    ((tileClicked (tileClicked
        ⟨[⟨TileType.BAMBOO_1, 0, 0, 0, false, false, false⟩,
          ⟨TileType.BAMBOO_1, 1, 0, 0, false, false, false⟩],
         2, 1, [none, none, none], none, false, false⟩ 0) 1).slots
      = [some 0, some 1, none]) ∧
    ((tileClicked (tileClicked
        ⟨[⟨TileType.BAMBOO_1, 0, 0, 0, false, false, false⟩,
          ⟨TileType.BAMBOO_1, 1, 0, 0, false, false, false⟩],
         2, 1, [none, none, none], none, false, false⟩ 0) 1).pendingRemoval = true) ∧
    (isGameWon (tileClicked (tileClicked
        ⟨[⟨TileType.BAMBOO_1, 0, 0, 0, false, false, false⟩,
          ⟨TileType.BAMBOO_1, 1, 0, 0, false, false, false⟩],
         2, 1, [none, none, none], none, false, false⟩ 0) 1).board = true) := by
  decide

theorem coveredAbove_iff (tiles : List Tile) (t : Tile) :
    coveredAbove tiles t = true ↔
      ∃ o ∈ tiles, o.removed = false ∧ o.x = t.x ∧ o.y = t.y ∧ t.z < o.z := by
  simp only [coveredAbove, List.any_eq_true, Bool.and_eq_true, Bool.not_eq_true',
    beq_iff_eq, decide_eq_true_eq]
  constructor
  · rintro ⟨o, ho, ⟨⟨⟨hr, hx⟩, hy⟩, hz⟩⟩
    exact ⟨o, ho, hr, hx, hy, hz⟩
  · rintro ⟨o, ho, hr, hx, hy, hz⟩
    exact ⟨o, ho, ⟨⟨⟨hr, hx⟩, hy⟩, hz⟩⟩

theorem any_set_removed (tiles : List Tile) (j : Nat) (u : Tile) (p : Tile → Bool)
    (hp : ∀ v, p v = true → v.removed = false) :
    (tiles.set j { u with removed := true }).any p = true → tiles.any p = true := by
  intro h
  rcases List.any_eq_true.mp h with ⟨v, hv, hpv⟩
  rcases List.mem_or_eq_of_mem_set hv with hv' | hv'
  · exact List.any_eq_true.mpr ⟨v, hv', hpv⟩
  · subst hv'
    have := hp _ hpv
    simp at this

theorem hasNeighborAt_iff (tiles : List Tile) (i : Nat) (t : Tile) (dx dy : Int) :
    hasNeighborAt tiles i t dx dy = true ↔
      ∃ j u, j ≠ i ∧ tiles[j]? = some u ∧ u.removed = false ∧ u.z = t.z ∧
        u.x = t.x + dx ∧ u.y = t.y + dy := by
  simp only [hasNeighborAt, List.any_eq_true, Bool.and_eq_true, Bool.not_eq_true',
    beq_iff_eq, decide_eq_true_eq]
  constructor
  · rintro ⟨⟨j, u⟩, hmem, h⟩
    have hj : tiles[j]? = some u := List.mem_enum_iff_getElem?.mp hmem
    exact ⟨j, u, h.1.1.1.1, hj, h.1.1.1.2, h.1.1.2, h.1.2, h.2⟩
  · rintro ⟨j, u, hne, hj, hr, hz, hx, hy⟩
    exact ⟨(j, u), List.mem_enum_iff_getElem?.mpr hj, ⟨⟨⟨⟨hne, hr⟩, hz⟩, hx⟩, hy⟩⟩

theorem hasAdjacentSameTypeAt_iff (tiles : List Tile) (i : Nat) (t : Tile) (dx dy : Int) :
    hasAdjacentSameTypeAt tiles i t dx dy = true ↔
      ∃ j u, j ≠ i ∧ tiles[j]? = some u ∧ u.removed = false ∧
        u.tileType = t.tileType ∧ u.z = t.z ∧ u.x = t.x + dx ∧ u.y = t.y + dy := by
  simp only [hasAdjacentSameTypeAt, List.any_eq_true, Bool.and_eq_true,
    Bool.not_eq_true', beq_iff_eq, decide_eq_true_eq]
  constructor
  · rintro ⟨⟨j, u⟩, hmem, h⟩
    have hj : tiles[j]? = some u := List.mem_enum_iff_getElem?.mp hmem
    exact ⟨j, u, h.1.1.1.1.1, hj, h.1.1.1.1.2, h.1.1.1.2, h.1.1.2, h.1.2, h.2⟩
  · rintro ⟨j, u, hne, hj, hr, hk, hz, hx, hy⟩
    exact ⟨(j, u), List.mem_enum_iff_getElem?.mpr hj, ⟨⟨⟨⟨⟨hne, hr⟩, hk⟩, hz⟩, hx⟩, hy⟩⟩

theorem getElem_some_lt {α : Type} {l : List α} {j : Nat} {u : α}
    (h : l[j]? = some u) : j < l.length := by
  rcases List.getElem?_eq_some.mp h with ⟨hlt, _⟩
  exact hlt

theorem hasNeighborAt_set_removed (tiles : List Tile) (i j : Nat) (t u : Tile)
    (hj : tiles[j]? = some u) (dx dy : Int)
    (h : hasNeighborAt (setTile tiles j fun v => { v with removed := true }) i t dx dy
      = true) :
    hasNeighborAt tiles i t dx dy = true := by
  rcases (hasNeighborAt_iff _ _ _ _ _).mp h with ⟨j2, u2, hne, hj2, hr, hz, hx, hy⟩
  unfold setTile at hj2
  rw [hj] at hj2
  by_cases hjj : j = j2
  · subst hjj
    rw [List.getElem?_set_eq (getElem_some_lt hj)] at hj2
    cases hj2
    simp at hr
  · rw [List.getElem?_set_ne hjj] at hj2
    exact (hasNeighborAt_iff _ _ _ _ _).mpr ⟨j2, u2, hne, hj2, hr, hz, hx, hy⟩

theorem coveredAbove_setRemoved (tiles : List Tile) (j : Nat) (t : Tile) :
    coveredAbove (setTile tiles j fun v => { v with removed := true }) t = true →
    coveredAbove tiles t = true := by
  unfold setTile
  cases hj : tiles[j]? with
  | none => exact id
  | some u =>
    unfold coveredAbove
    intro h
    apply any_set_removed tiles j u _ _ h
    intro v hv
    simp only [Bool.and_eq_true, Bool.not_eq_true'] at hv
    exact hv.1.1.1

theorem isTileAvailableClassic_monotone (tiles : List Tile) (t : Tile) (j : Nat)
    (h : isTileAvailableClassic tiles t = true) :
    isTileAvailableClassic (setTile tiles j fun v => { v with removed := true }) t
      = true := by
  unfold isTileAvailableClassic at h ⊢
  by_cases hrem : t.removed
  · rw [if_pos hrem] at h
    exact absurd h (by simp)
  · rw [if_neg hrem] at h ⊢
    by_cases hcov : coveredAbove tiles t
    · rw [if_pos hcov] at h
      exact absurd h (by simp)
    · rw [if_neg hcov] at h
      rw [if_neg (fun hc => hcov (coveredAbove_setRemoved tiles j t hc))]
      simp only [Bool.not_eq_true', Bool.and_eq_false_iff] at h ⊢
      unfold setTile
      cases hj : tiles[j]? with
      | none => exact h
      | some u =>
        rcases h with h | h
        · left
          by_cases hb : (tiles.set j { u with removed := true }).any
              (fun o => !o.removed && o.z == t.z && o.y == t.y && o.x == t.x - 1) = true
          · exfalso
            have := any_set_removed tiles j u _ (fun v hv => by
              simp only [Bool.and_eq_true, Bool.not_eq_true'] at hv
              exact hv.1.1.1) hb
            rw [h] at this
            exact absurd this (by simp)
          · revert hb
            cases (tiles.set j { u with removed := true }).any
              (fun o => !o.removed && o.z == t.z && o.y == t.y && o.x == t.x - 1) <;> simp
        · right
          by_cases hb : (tiles.set j { u with removed := true }).any
              (fun o => !o.removed && o.z == t.z && o.y == t.y && o.x == t.x + 1) = true
          · exfalso
            have := any_set_removed tiles j u _ (fun v hv => by
              simp only [Bool.and_eq_true, Bool.not_eq_true'] at hv
              exact hv.1.1.1) hb
            rw [h] at this
            exact absurd this (by simp)
          · revert hb
            cases (tiles.set j { u with removed := true }).any
              (fun o => !o.removed && o.z == t.z && o.y == t.y && o.x == t.x + 1) <;> simp

theorem isTileAvailableExt_monotone (b : Board) (i j : Nat) (u : Tile)
    (hj : b.tiles[j]? = some u) (hij : i ≠ j) (hdl : distinctLive b.tiles)
    (h : isTileAvailableExt b i = true) :
    isTileAvailableExt
      { b with tiles := setTile b.tiles j fun v => { v with removed := true } } i
      = true := by
  have hset : setTile b.tiles j (fun v => { v with removed := true }) =
      b.tiles.set j { u with removed := true } := by
    unfold setTile
    rw [hj]
  unfold isTileAvailableExt at h ⊢
  cases hi : b.tiles[i]? with
  | none => exact absurd h (by simp only [hi]; simp)
  | some t =>
    simp only [hi] at h
    have hi' : (setTile b.tiles j fun v => { v with removed := true })[i]? = some t := by
      rw [hset, List.getElem?_set_ne (Ne.symm hij)]
      exact hi
    simp only [hi']
    by_cases hrem : t.removed
    · rw [if_pos hrem] at h
      exact absurd h (by simp)
    · rw [if_neg hrem] at h ⊢
      by_cases hcov : coveredAbove b.tiles t = true
      · rw [if_pos hcov] at h
        exact absurd h (by simp)
      · rw [if_neg hcov] at h
        rw [if_neg (fun hc => hcov (coveredAbove_setRemoved b.tiles j t hc))]
        by_cases hfree' : (sideDirs.any fun d =>
            !hasNeighborAt (setTile b.tiles j fun v => { v with removed := true }) i t
              d.1 d.2) = true
        · rw [if_pos hfree']
        · rw [if_neg hfree']
          -- every direction is blocked after the removal, hence was blocked before
          have hblocked' : ∀ d ∈ sideDirs,
              hasNeighborAt (setTile b.tiles j fun v => { v with removed := true }) i t
                d.1 d.2 = true := by
            intro d hd
            by_contra hcd
            apply hfree'
            apply List.any_eq_true.mpr
            refine ⟨d, hd, ?_⟩
            revert hcd
            cases hasNeighborAt (setTile b.tiles j fun v => { v with removed := true })
              i t d.1 d.2 <;> simp
          have hblocked : ∀ d ∈ sideDirs, hasNeighborAt b.tiles i t d.1 d.2 = true :=
            fun d hd => hasNeighborAt_set_removed b.tiles i j t u hj d.1 d.2
              (hblocked' d hd)
          have hfree : (sideDirs.any fun d => !hasNeighborAt b.tiles i t d.1 d.2)
              = false := by
            cases hca : (sideDirs.any fun d => !hasNeighborAt b.tiles i t d.1 d.2) with
            | false => rfl
            | true =>
              exfalso
              rcases List.any_eq_true.mp hca with ⟨d, hd, hdneg⟩
              rw [hblocked d hd] at hdneg
              exact absurd hdneg (by simp)
          rw [if_neg (by rw [hfree]; simp)] at h
          rcases List.any_eq_true.mp h with ⟨d, hd, hsame⟩
          rcases (hasAdjacentSameTypeAt_iff _ _ _ _ _).mp hsame
            with ⟨jw, w, hwne, hjw, hwr, hwk, hwz, hwx, hwy⟩
          by_cases hjj : jw = j
          · -- the same-kind neighbour is the one being removed; since its cell
            -- stays blocked afterwards, a second live tile would share it,
            -- contradicting position-distinctness
            subst hjj
            exfalso
            rcases (hasNeighborAt_iff _ _ _ _ _).mp (hblocked' d hd)
              with ⟨j2, u2, h2ne, hj2, h2r, h2z, h2x, h2y⟩
            rw [hset] at hj2
            by_cases hj2j : j2 = jw
            · subst hj2j
              rw [List.getElem?_set_eq (getElem_some_lt hj)] at hj2
              cases hj2
              simp at h2r
            · rw [List.getElem?_set_ne (fun hc => hj2j hc.symm)] at hj2
              exact hj2j (hdl j2 jw u2 w hj2 hjw h2r hwr
                (by rw [h2x, hwx]) (by rw [h2y, hwy]) (by rw [h2z, hwz]))
          · apply List.any_eq_true.mpr
            refine ⟨d, hd, ?_⟩
            apply (hasAdjacentSameTypeAt_iff _ _ _ _ _).mpr
            refine ⟨jw, w, hwne, ?_, hwr, hwk, hwz, hwx, hwy⟩
            rw [hset, List.getElem?_set_ne (fun hc => hjj hc.symm)]
            exact hjw

/-- Claim C6: in both rule variants availability is false whenever a
non-removed tile covers the same `(x, y)` at a strictly higher layer, and
marking any other tile removed never makes an available tile unavailable
(for the extended rule this uses the data-model invariant that no two live
tiles share a position, because the same-kind-adjacency shortcut consults a
unique cell occupant). -/
theorem availability_cover_and_monotone :
    (∀ (tiles : List Tile) (t : Tile),
      (∃ o ∈ tiles, o.removed = false ∧ o.x = t.x ∧ o.y = t.y ∧ t.z < o.z) →
      isTileAvailableClassic tiles t = false) ∧
    (∀ (b : Board) (i : Nat) (t : Tile), b.tiles[i]? = some t →
      (∃ o ∈ b.tiles, o.removed = false ∧ o.x = t.x ∧ o.y = t.y ∧ t.z < o.z) →
      isTileAvailableExt b i = false) ∧
    (∀ (tiles : List Tile) (t : Tile) (j : Nat),
      isTileAvailableClassic tiles t = true →
      isTileAvailableClassic (setTile tiles j fun v => { v with removed := true }) t
        = true) ∧
    (∀ (b : Board) (i j : Nat) (u : Tile), b.tiles[j]? = some u → i ≠ j →
      distinctLive b.tiles →
      isTileAvailableExt b i = true →
      isTileAvailableExt
        { b with tiles := setTile b.tiles j fun v => { v with removed := true } } i
        = true) := by
  refine ⟨?_, ?_, isTileAvailableClassic_monotone, isTileAvailableExt_monotone⟩
  · intro tiles t hcov
    unfold isTileAvailableClassic
    by_cases hrem : t.removed
    · rw [if_pos hrem]
    · rw [if_neg hrem, if_pos ((coveredAbove_iff tiles t).mpr hcov)]
  · intro b i t ht hcov
    unfold isTileAvailableExt
    simp only [ht]
    by_cases hrem : t.removed
    · rw [if_pos hrem]
    · rw [if_neg hrem, if_pos ((coveredAbove_iff b.tiles t).mpr hcov)]

/-- Claim C6, witness: a two-layer stack blocks the lower tile in both
variants, and removing an unrelated tile keeps an available tile
available. -/
theorem availability_cover_and_monotone_witness :
    isTileAvailableClassic
      [⟨TileType.BAMBOO_1, 5, 5, 0, false, false, false⟩,
       ⟨TileType.DOT_1, 5, 5, 1, false, false, false⟩]
      ⟨TileType.BAMBOO_1, 5, 5, 0, false, false, false⟩ = false ∧
    isTileAvailableExt
      ⟨[⟨TileType.BAMBOO_1, 5, 5, 0, false, false, false⟩,
        ⟨TileType.DOT_1, 5, 5, 1, false, false, false⟩], 20, 10, none, false⟩ 0 = false ∧
    isTileAvailableClassic
      (setTile
        [⟨TileType.BAMBOO_1, 0, 0, 0, false, false, false⟩,
         ⟨TileType.DOT_1, 3, 3, 0, false, false, false⟩]
        1 fun v => { v with removed := true })
      ⟨TileType.BAMBOO_1, 0, 0, 0, false, false, false⟩ = true ∧
    isTileAvailableExt
      ⟨setTile
          [⟨TileType.BAMBOO_1, 0, 0, 0, false, false, false⟩,
           ⟨TileType.DOT_1, 3, 3, 0, false, false, false⟩]
          1 (fun v => { v with removed := true }), 20, 10, none, false⟩ 0 = true := by
  refine ⟨?_, ?_, ?_, ?_⟩
  · exact availability_cover_and_monotone.1 _ _
      ⟨⟨TileType.DOT_1, 5, 5, 1, false, false, false⟩, by decide, by decide⟩
  · exact availability_cover_and_monotone.2.1 _ 0 _ (by rfl)
      ⟨⟨TileType.DOT_1, 5, 5, 1, false, false, false⟩, by decide, by decide⟩
  · exact availability_cover_and_monotone.2.2.1 _ _ 1 (by decide)
  · have hdl : distinctLive
        [⟨TileType.BAMBOO_1, 0, 0, 0, false, false, false⟩,
         ⟨TileType.DOT_1, 3, 3, 0, false, false, false⟩] := by
      intro j1 j2 t1 t2 h1 h2 hr1 hr2 hx hy hz
      have hl1 : j1 < 2 := getElem_some_lt h1
      have hl2 : j2 < 2 := getElem_some_lt h2
      interval_cases j1 <;> interval_cases j2 <;> simp_all <;>
        (subst h1; subst h2; simp_all)
    exact availability_cover_and_monotone.2.2.2
      ⟨[⟨TileType.BAMBOO_1, 0, 0, 0, false, false, false⟩,
        ⟨TileType.DOT_1, 3, 3, 0, false, false, false⟩], 20, 10, none, false⟩
      0 1 ⟨TileType.DOT_1, 3, 3, 0, false, false, false⟩ (by rfl) (by decide) hdl
      (by decide)

/-!
Claim C7 — the slot-variant click.
-/
theorem isTileAvailableS2_not_removed (b : Board) (i : Nat) (t : Tile)
    (ht : b.tiles[i]? = some t) (h : isTileAvailableS2 b i = true) :
    t.removed = false := by
  unfold isTileAvailableS2 at h
  simp only [ht] at h
  by_cases hrem : t.removed
  · rw [if_pos hrem] at h
    exact absurd h (by simp)
  · exact Bool.not_eq_true t.removed |>.mp hrem

/-- Claim C7: for a click on an available non-removed tile `t` in the slot
variant — (1) with slots 0 and 1 both occupied and slot 0 holding `t`'s
kind, slot 0's tile and `t` are removed at once and slot 0 is cleared;
(2) likewise for slot 1 when slot 0's kind differs; (3) when no held kind
matches (or some of slots 0 and 1 is free), the tile goes into the first
free slot in priority order 0, 1, 2 (slot 2 only when unlocked), its
`removed` flag is set, and the single-entry undo record
`{tile, original position, slot index}` overwrites any prior one; (4) with
no free slot and no kind match the click changes nothing. -/
theorem slot_click_behaviour (s : S2State) (i : Nat) (t : Tile)
    (ht : s.tiles[i]? = some t)
    (hav : isTileAvailableS2 s.board i = true) :
    (∀ (j0 : Nat) (t0 : Tile), s.slots.getD 0 none = some j0 →
      (∃ j1, s.slots.getD 1 none = some j1) →
      s.tiles[j0]? = some t0 → t0.tileType = t.tileType →
      tileClicked s i =
        { s with
          lastMove := none, pendingRemoval := false,
          tiles := setTile (setTile s.tiles i fun u => { u with removed := true }) j0
            fun u => { u with removed := true },
          slots := s.slots.set 0 none }) ∧
    (∀ (j0 j1 : Nat) (t0 t1 : Tile),
      s.slots.getD 0 none = some j0 → s.slots.getD 1 none = some j1 →
      s.tiles[j0]? = some t0 → s.tiles[j1]? = some t1 →
      t0.tileType ≠ t.tileType → t1.tileType = t.tileType →
      tileClicked s i =
        { s with
          lastMove := none, pendingRemoval := false,
          tiles := setTile (setTile s.tiles i fun u => { u with removed := true }) j1
            fun u => { u with removed := true },
          slots := s.slots.set 1 none }) ∧
    ((s.slots.getD 0 none = none ∨ s.slots.getD 1 none = none ∨
        s2MatchSlot s t.tileType = none) →
      ∀ si, s2FirstFree s = some si →
        (tileClicked s i).slots = s.slots.set si (some i) ∧
        (tileClicked s i).tiles = setTile s.tiles i (fun u => { u with removed := true }) ∧
        (tileClicked s i).lastMove = some ⟨i, t.x, t.y, t.z, si⟩) ∧
    ((s.slots.getD 0 none = none ∨ s.slots.getD 1 none = none ∨
        s2MatchSlot s t.tileType = none) →
      s2FirstFree s = none → tileClicked s i = s) := by
  have hrem : t.removed = false :=
    isTileAvailableS2_not_removed s.board i t ht hav
  have hguard : ¬(¬isTileAvailableS2 s.board i = true ∨ t.removed = true) := by
    rw [hav, hrem]
    simp
  have hplace : ∀ si, s2FirstFree s = some si →
      (s2Place s i t).slots = s.slots.set si (some i) ∧
      (s2Place s i t).tiles = setTile s.tiles i (fun u => { u with removed := true }) ∧
      (s2Place s i t).lastMove = some ⟨i, t.x, t.y, t.z, si⟩ := by
    intro si hsi
    unfold s2Place
    simp only [hsi]
    refine ⟨?_, ?_, ?_⟩ <;>
      (repeat' split) <;> rfl
  refine ⟨?_, ?_, ?_, ?_⟩
  · intro j0 t0 h0 ⟨j1, h1⟩ ht0 hk0
    unfold tileClicked
    simp only [ht]
    rw [if_neg hguard]
    simp only [h0, h1]
    have hm : s2MatchSlot s t.tileType = some (0, j0) := by
      unfold s2MatchSlot
      simp only [h0, ht0]
      rw [if_pos hk0]
    simp only [hm]
  · intro j0 j1 t0 t1 h0 h1 ht0 ht1 hk0 hk1
    unfold tileClicked
    simp only [ht]
    rw [if_neg hguard]
    simp only [h0, h1]
    have hm : s2MatchSlot s t.tileType = some (1, j1) := by
      unfold s2MatchSlot
      simp only [h0, ht0, h1, ht1]
      rw [if_neg hk0, if_pos hk1]
    simp only [hm]
  · intro hnm si hsi
    have hroute : tileClicked s i = s2Place s i t := by
      unfold tileClicked
      simp only [ht]
      rw [if_neg hguard]
      rcases hnm with h0 | h1 | hm
      · simp only [h0]
      · rw [h1]
        all_goals (cases s.slots.getD 0 none <;> rfl)
      · cases h0 : s.slots.getD 0 none with
        | none => rfl
        | some j0 =>
          cases h1 : s.slots.getD 1 none with
          | none => rfl
          | some j1 => simp only [hm]
    rw [hroute]
    exact hplace si hsi
  · intro hnm hfree
    have hroute : tileClicked s i = s2Place s i t := by
      unfold tileClicked
      simp only [ht]
      rw [if_neg hguard]
      rcases hnm with h0 | h1 | hm
      · simp only [h0]
      · rw [h1]
        all_goals (cases s.slots.getD 0 none <;> rfl)
      · cases h0 : s.slots.getD 0 none with
        | none => rfl
        | some j0 =>
          cases h1 : s.slots.getD 1 none with
          | none => rfl
          | some j1 => simp only [hm]
    rw [hroute]
    unfold s2Place
    simp only [hfree]

/-- Claim C7, witness: with slots 0 and 1 holding kinds `DOT_1` and
`BAMBOO_1`, clicking a `BAMBOO_1` board tile clears slot 1; with a free
slot and no double occupancy the tile is parked and the undo record
written; with all slots full and no kind match the click is a no-op. -/
theorem slot_click_behaviour_witness :
    ((tileClicked
      ⟨[⟨TileType.DOT_1, 0, 0, 0, false, true, false⟩,
        ⟨TileType.BAMBOO_1, 1, 0, 0, false, true, false⟩,
        ⟨TileType.BAMBOO_1, 2, 0, 0, false, false, false⟩],
       4, 1, [some 0, some 1, none], none, false, false⟩ 2).slots
      = [some 0, none, none]) ∧
    ((tileClicked
      ⟨[⟨TileType.DOT_1, 0, 0, 0, false, true, false⟩,
        ⟨TileType.BAMBOO_1, 1, 0, 0, false, false, false⟩],
       4, 1, [some 0, none, none], none, false, false⟩ 1).lastMove
      = some ⟨1, 1, 0, 0, 1⟩) ∧
    (tileClicked
      ⟨[⟨TileType.DOT_1, 0, 0, 0, false, true, false⟩,
        ⟨TileType.WAN_1, 1, 0, 0, false, true, false⟩,
        ⟨TileType.BAMBOO_1, 2, 0, 0, false, false, false⟩],
       4, 1, [some 0, some 1, none], none, false, false⟩ 2 =
      ⟨[⟨TileType.DOT_1, 0, 0, 0, false, true, false⟩,
        ⟨TileType.WAN_1, 1, 0, 0, false, true, false⟩,
        ⟨TileType.BAMBOO_1, 2, 0, 0, false, false, false⟩],
       4, 1, [some 0, some 1, none], none, false, false⟩) := by
  refine ⟨?_, ?_, ?_⟩
  · have h := (slot_click_behaviour
      ⟨[⟨TileType.DOT_1, 0, 0, 0, false, true, false⟩,
        ⟨TileType.BAMBOO_1, 1, 0, 0, false, true, false⟩,
        ⟨TileType.BAMBOO_1, 2, 0, 0, false, false, false⟩],
       4, 1, [some 0, some 1, none], none, false, false⟩ 2
      ⟨TileType.BAMBOO_1, 2, 0, 0, false, false, false⟩ (by rfl) (by decide)).2.1
      0 1 ⟨TileType.DOT_1, 0, 0, 0, false, true, false⟩
      ⟨TileType.BAMBOO_1, 1, 0, 0, false, true, false⟩
      (by rfl) (by rfl) (by rfl) (by rfl) (by decide) (by decide)
    rw [h]
    rfl
  · have h := (slot_click_behaviour
      ⟨[⟨TileType.DOT_1, 0, 0, 0, false, true, false⟩,
        ⟨TileType.BAMBOO_1, 1, 0, 0, false, false, false⟩],
       4, 1, [some 0, none, none], none, false, false⟩ 1
      ⟨TileType.BAMBOO_1, 1, 0, 0, false, false, false⟩ (by rfl) (by decide)).2.2.1
      (by right; left; rfl) 1 (by decide)
    exact h.2.2
  · have h := (slot_click_behaviour
      ⟨[⟨TileType.DOT_1, 0, 0, 0, false, true, false⟩,
        ⟨TileType.WAN_1, 1, 0, 0, false, true, false⟩,
        ⟨TileType.BAMBOO_1, 2, 0, 0, false, false, false⟩],
       4, 1, [some 0, some 1, none], none, false, false⟩ 2
      ⟨TileType.BAMBOO_1, 2, 0, 0, false, false, false⟩ (by rfl) (by decide)).2.2.2
      (by right; right; decide) (by decide)
    exact h

/-!
Claim C8 — undo of a slot placement.
-/
theorem set_getElem_same {α : Type} (l : List α) (n : Nat) (v : α)
    (h : l[n]? = some v) : l.set n v = l := by
  apply List.ext_getElem?
  intro m
  by_cases hm : n = m
  · subst hm
    rcases List.getElem?_eq_some.mp h with ⟨hlt, _⟩
    rw [List.getElem?_set_eq hlt, h]
  · rw [List.getElem?_set_ne hm]

theorem s2Place_fields (s : S2State) (i : Nat) (t : Tile) (si : Nat)
    (hsi : s2FirstFree s = some si) :
    (s2Place s i t).slots = s.slots.set si (some i) ∧
    (s2Place s i t).tiles = setTile s.tiles i (fun u => { u with removed := true }) ∧
    (s2Place s i t).lastMove = some ⟨i, t.x, t.y, t.z, si⟩ := by
  unfold s2Place
  simp only [hsi]
  refine ⟨?_, ?_, ?_⟩ <;> (repeat' split) <;> rfl

theorem s2FirstFree_lt (s : S2State) (si : Nat) (h : s2FirstFree s = some si) :
    si < 3 ∧ s.slots.getD si none = none := by
  unfold s2FirstFree at h
  by_cases h0 : s.slots.getD 0 none = none
  · rw [if_pos h0] at h
    cases h
    exact ⟨by omega, h0⟩
  · rw [if_neg h0] at h
    by_cases h1 : s.slots.getD 1 none = none
    · rw [if_pos h1] at h
      cases h
      exact ⟨by omega, h1⟩
    · rw [if_neg h1] at h
      by_cases h2 : s.thirdUnlocked ∧ s.slots.getD 2 none = none
      · rw [if_pos h2] at h
        cases h
        exact ⟨by omega, h2.2⟩
      · rw [if_neg h2] at h
        exact absurd h (by simp)

theorem undoLastMove_restore (s : S2State) (m : S2Move) (j : Nat) (tj tm : Tile)
    (hm : s.lastMove = some m) (hj : s.slots.getD m.slotIndex none = some j)
    (htj : s.tiles[j]? = some tj) (htm : s.tiles[m.tileIdx]? = some tm)
    (heq : tileEq tj tm = true) :
    undoLastMove s =
      { s with
        tiles := setTile s.tiles m.tileIdx fun u =>
          { u with x := m.x, y := m.y, z := m.z, removed := false },
        slots := s.slots.set m.slotIndex none,
        lastMove := none } := by
  unfold undoLastMove
  rw [hm]
  simp only [hj, htj, htm, heq, not_true, if_false]

theorem undoLastMove_clear (s : S2State) (m : S2Move)
    (hm : s.lastMove = some m)
    (hmis : s.slots.getD m.slotIndex none = none ∨
      (∃ (j : Nat) (tj tm : Tile), s.slots.getD m.slotIndex none = some j ∧
        s.tiles[j]? = some tj ∧ s.tiles[m.tileIdx]? = some tm ∧
        tileEq tj tm = false)) :
    undoLastMove s = { s with lastMove := none } := by
  unfold undoLastMove
  rw [hm]
  rcases hmis with hnone | ⟨j, tj, tm, hj, htj, htm, hne⟩
  · simp only [hnone]
    rw [if_pos (by simp)]
  · simp only [hj, htj, htm, hne]
    rw [if_pos (by simp)]

/-- Claim C8, counterexample: the undo record points at slot 0 for tile
index 0, but slot 0 actually holds the distinct tile 1 of the same kind.
The claim demands a complete no-op, yet `undo_last_move` proceeds: the
guard `solitaire2_slots[slot_index] != tile` compares through the
kind-based `Tile.__eq__`, mistakes tile 1 for the recorded tile, and
performs the restore (and even on a genuine mismatch the code still
clears the record, which is not a no-op either). -/
theorem undo_foreign_slot_cex :
    (⟨[⟨TileType.BAMBOO_1, 0, 0, 0, false, true, false⟩,
       ⟨TileType.BAMBOO_1, 5, 5, 0, false, true, false⟩],
      6, 6, [some 1, none, none], some ⟨0, 0, 0, 0, 0⟩, false, false⟩ : S2State).slots.getD
        0 none = some 1 ∧
    (1 : Nat) ≠ 0 ∧
    undoLastMove
      ⟨[⟨TileType.BAMBOO_1, 0, 0, 0, false, true, false⟩,
        ⟨TileType.BAMBOO_1, 5, 5, 0, false, true, false⟩],
       6, 6, [some 1, none, none], some ⟨0, 0, 0, 0, 0⟩, false, false⟩ ≠
      ⟨[⟨TileType.BAMBOO_1, 0, 0, 0, false, true, false⟩,
        ⟨TileType.BAMBOO_1, 5, 5, 0, false, true, false⟩],
       6, 6, [some 1, none, none], some ⟨0, 0, 0, 0, 0⟩, false, false⟩ := by
  refine ⟨rfl, by decide, ?_⟩
  decide

/-- Claim C8, amended: a slot placement followed immediately by
`undo_last_move` restores the tile collection and the slots exactly and
clears the record; undo with no record is a no-op; and when the recorded
slot is empty or holds a tile of a different kind (the guard compares
kinds, not identity), undo clears the record but changes nothing else. -/
theorem slot_undo_round_trip (s : S2State) (i : Nat) (t : Tile) (si : Nat)
    (ht : s.tiles[i]? = some t) (hrem : t.removed = false)
    (hsi : s2FirstFree s = some si) (hlen : s.slots.length = 3) :
    ((undoLastMove (s2Place s i t)).tiles = s.tiles ∧
     (undoLastMove (s2Place s i t)).slots = s.slots ∧
     (undoLastMove (s2Place s i t)).lastMove = none) ∧
    (∀ s' : S2State, s'.lastMove = none → undoLastMove s' = s') ∧
    (∀ (s' : S2State) (m : S2Move), s'.lastMove = some m →
      (s'.slots.getD m.slotIndex none = none ∨
        (∃ (j : Nat) (tj tm : Tile), s'.slots.getD m.slotIndex none = some j ∧
          s'.tiles[j]? = some tj ∧ s'.tiles[m.tileIdx]? = some tm ∧
          tj.tileType ≠ tm.tileType)) →
      undoLastMove s' = { s' with lastMove := none }) := by
  obtain ⟨hslots, htiles, hlast⟩ := s2Place_fields s i t si hsi
  obtain ⟨hsilt, hfree⟩ := s2FirstFree_lt s si hsi
  have hilen : i < s.tiles.length := getElem_some_lt ht
  have hfree' : s.slots[si]? = some none := by
    rw [List.getD_eq_getElem?_getD] at hfree
    cases hfs : s.slots[si]? with
    | none =>
      rw [List.getElem?_eq_none_iff] at hfs
      omega
    | some v =>
      rw [hfs] at hfree
      cases v with
      | none => rfl
      | some j => simp at hfree
  refine ⟨?_, ?_, ?_⟩
  · have hslotview : (s2Place s i t).slots.getD si none = some i := by
      rw [hslots, List.getD_eq_getElem?_getD,
        List.getElem?_set_eq (by rw [hlen]; omega)]
      rfl
    have htileview : (s2Place s i t).tiles[i]? = some { t with removed := true } := by
      rw [htiles]
      unfold setTile
      rw [ht, List.getElem?_set_eq hilen]
    have hrestore := undoLastMove_restore (s2Place s i t) ⟨i, t.x, t.y, t.z, si⟩ i
      { t with removed := true } { t with removed := true } hlast hslotview htileview
      htileview (by unfold tileEq; simp)
    rw [hrestore]
    refine ⟨?_, ?_, rfl⟩
    · show setTile (s2Place s i t).tiles i _ = s.tiles
      have htiles' : (s2Place s i t).tiles = s.tiles.set i { t with removed := true } := by
        rw [htiles]
        unfold setTile
        rw [ht]
      rw [htiles']
      unfold setTile
      have hgl : (s.tiles.set i { t with removed := true })[i]? =
          some { t with removed := true } := by
        rw [List.getElem?_set_eq (by simpa using hilen)]
      simp only [hgl]
      rw [List.set_set]
      have hback : ({ { t with removed := true } with
          x := t.x, y := t.y, z := t.z, removed := false } : Tile) = t := by
        cases t
        simp_all
      rw [hback]
      exact set_getElem_same s.tiles i t ht
    · show (s2Place s i t).slots.set si none = s.slots
      rw [hslots, List.set_set]
      exact set_getElem_same s.slots si none hfree'
  · intro s' hn
    unfold undoLastMove
    rw [hn]
  · intro s' m hm hmis
    apply undoLastMove_clear s' m hm
    rcases hmis with hnone | ⟨j, tj, tm, hj, htj, htm, hne⟩
    · exact Or.inl hnone
    · refine Or.inr ⟨j, tj, tm, hj, htj, htm, ?_⟩
      unfold tileEq
      simp only [beq_eq_false_iff_ne, ne_eq]
      exact hne

/-- Concrete instance of the amended C8 statement. -/
theorem slot_undo_round_trip_witness :
    (⟨[⟨TileType.BAMBOO_1, 0, 0, 0, false, false, false⟩],
      6, 6, [none, none, none], none, false, false⟩ : S2State).tiles[0]? =
      some ⟨TileType.BAMBOO_1, 0, 0, 0, false, false, false⟩ ∧
    (undoLastMove (s2Place
      ⟨[⟨TileType.BAMBOO_1, 0, 0, 0, false, false, false⟩],
       6, 6, [none, none, none], none, false, false⟩ 0
      ⟨TileType.BAMBOO_1, 0, 0, 0, false, false, false⟩)).tiles =
      [⟨TileType.BAMBOO_1, 0, 0, 0, false, false, false⟩] := by
  refine ⟨rfl, ?_⟩
  have h := slot_undo_round_trip
    ⟨[⟨TileType.BAMBOO_1, 0, 0, 0, false, false, false⟩],
     6, 6, [none, none, none], none, false, false⟩ 0
    ⟨TileType.BAMBOO_1, 0, 0, 0, false, false, false⟩ 0
    rfl rfl (by decide) rfl
  exact h.1.1

/-!
Claim C4 — even kind parity. Counting infrastructure first.
-/
theorem countP_set_add {α : Type} (l : List α) (i : Nat) (u v : α) (p : α → Bool)
    (h : l[i]? = some u) :
    (l.set i v).countP p + (if p u then 1 else 0) =
    l.countP p + (if p v then 1 else 0) := by
  induction l generalizing i with
  | nil => simp at h
  | cons a tl ih =>
    cases i with
    | zero =>
      have ha : a = u := by simpa using h
      subst ha
      have hs : (a :: tl).set 0 v = v :: tl := rfl
      rw [hs, List.countP_cons, List.countP_cons]
      omega
    | succ n =>
      have htl : tl[n]? = some u := by simpa using h
      have hs : (a :: tl).set (n + 1) v = a :: tl.set n v := rfl
      rw [hs, List.countP_cons, List.countP_cons]
      have := ih n htl
      omega

theorem kindCount_setTile_flags (tiles : List Tile) (i : Nat) (f : Tile → Tile)
    (k : TileType)
    (hf : ∀ u, (f u).removed = u.removed ∧ (f u).tileType = u.tileType) :
    kindCount (setTile tiles i f) k = kindCount tiles k := by
  unfold setTile
  cases h : tiles[i]? with
  | none => rfl
  | some u =>
    show kindCount (tiles.set i (f u)) k = kindCount tiles k
    have hc := countP_set_add tiles i u (f u)
      (fun t => !t.removed && t.tileType == k) h
    have hpred : (fun t : Tile => !t.removed && t.tileType == k) (f u)
        = (fun t : Tile => !t.removed && t.tileType == k) u := by
      show (!(f u).removed && (f u).tileType == k) = (!u.removed && u.tileType == k)
      rw [(hf u).1, (hf u).2]
    rw [hpred] at hc
    unfold kindCount
    omega

theorem isTileAvailableExt_not_removed (b : Board) (i : Nat) (t : Tile)
    (ht : b.tiles[i]? = some t) (h : isTileAvailableExt b i = true) :
    t.removed = false := by
  unfold isTileAvailableExt at h
  simp only [ht] at h
  by_cases hrem : t.removed
  · rw [if_pos hrem] at h
    exact absurd h (by simp)
  · exact Bool.not_eq_true t.removed |>.mp hrem

theorem evenKinds_double_removal (tiles : List Tile) (s i : Nat) (ts t : Tile)
    (hs : tiles[s]? = some ts) (hi : tiles[i]? = some t) (hne : s ≠ i)
    (hts : ts.removed = false) (ht : t.removed = false)
    (hk : ts.tileType = t.tileType) (he : evenKinds tiles) :
    evenKinds (setTile
      (setTile tiles s fun u => { u with removed := true, selected := false })
      i fun u => { u with removed := true }) := by
  intro k
  have htiles1 : setTile tiles s (fun u => { u with removed := true, selected := false })
      = tiles.set s { ts with removed := true, selected := false } := by
    unfold setTile
    rw [hs]
  have hi1 : (tiles.set s { ts with removed := true, selected := false })[i]? = some t := by
    rw [List.getElem?_set_ne hne, hi]
  have hres : setTile (tiles.set s { ts with removed := true, selected := false }) i
      (fun u => { u with removed := true })
      = (tiles.set s { ts with removed := true, selected := false }).set i
        { t with removed := true } := by
    unfold setTile
    rw [hi1]
  rw [htiles1, hres]
  have e1 := countP_set_add tiles s ts { ts with removed := true, selected := false }
    (fun u => !u.removed && u.tileType == k) hs
  have e2 := countP_set_add (tiles.set s { ts with removed := true, selected := false })
    i t { t with removed := true } (fun u => !u.removed && u.tileType == k) hi1
  have he' := he k
  unfold kindCount at he' ⊢
  by_cases hkk : t.tileType = k
  · have hp1 : (!ts.removed && ts.tileType == k) = true := by
      rw [hts, hk, hkk]
      simp
    have hp2 : (!({ ts with removed := true, selected := false } : Tile).removed
        && ({ ts with removed := true, selected := false } : Tile).tileType == k) = false := by
      simp
    have hp3 : (!t.removed && t.tileType == k) = true := by
      rw [ht, hkk]
      simp
    have hp4 : (!({ t with removed := true } : Tile).removed
        && ({ t with removed := true } : Tile).tileType == k) = false := by
      simp
    simp only [hp1, hp2, hp3, hp4] at e1 e2
    omega
  · have hteq : (t.tileType == k) = false := by
      simp [hkk]
    have htseq : (ts.tileType == k) = false := by
      rw [hk]
      exact hteq
    have hp1 : (!ts.removed && ts.tileType == k) = false := by
      rw [htseq]
      simp
    have hp2 : (!({ ts with removed := true, selected := false } : Tile).removed
        && ({ ts with removed := true, selected := false } : Tile).tileType == k) = false := by
      simp
    have hp3 : (!t.removed && t.tileType == k) = false := by
      rw [hteq]
      simp
    have hp4 : (!({ t with removed := true } : Tile).removed
        && ({ t with removed := true } : Tile).tileType == k) = false := by
      simp
    simp only [hp1, hp2, hp3, hp4] at e1 e2
    omega

theorem clickTileExt_evenKinds (b : Board) (i : Nat) (he : evenKinds b.tiles) :
    evenKinds (clickTileExt b i).tiles := by
  have hflags : ∀ (tiles : List Tile) (j : Nat) (f : Tile → Tile),
      (∀ u, (f u).removed = u.removed ∧ (f u).tileType = u.tileType) →
      evenKinds tiles → evenKinds (setTile tiles j f) := by
    intro tiles j f hf h k
    rw [kindCount_setTile_flags tiles j f k hf]
    exact h k
  cases hi : b.tiles[i]? with
  | none =>
    unfold clickTileExt
    rw [hi]
    exact he
  | some t =>
    unfold clickTileExt
    simp only [hi]
    by_cases hgo : b.gameOver
    · rw [if_pos hgo]
      exact he
    · rw [if_neg hgo]
      by_cases hrem : t.removed = true
      · rw [if_pos hrem]
        exact he
      · rw [if_neg hrem]
        by_cases hav : isTileAvailableExt b i = true
        · rw [if_neg (not_not_intro hav)]
          split
          · show evenKinds (setTile b.tiles i fun u => { u with selected := true })
            exact hflags b.tiles i _ (fun u => ⟨rfl, rfl⟩) he
          · rename_i s hsel
            by_cases hsi : s = i
            · rw [if_pos hsi]
              show evenKinds (setTile b.tiles s fun u => { u with selected := false })
              exact hflags b.tiles s _ (fun u => ⟨rfl, rfl⟩) he
            · rw [if_neg hsi]
              split
              · exact he
              · rename_i ts hts
                by_cases hkind : ts.tileType = t.tileType
                · rw [if_pos hkind]
                  by_cases hcond : isTileAvailableExt b s ∧ isTileAvailableExt b i ∧
                      canConnect b s i 2
                  · rw [if_pos hcond]
                    show evenKinds (setTile
                      (setTile b.tiles s fun u =>
                        { u with removed := true, selected := false })
                      i fun u => { u with removed := true })
                    exact evenKinds_double_removal b.tiles s i ts t hts hi hsi
                      (isTileAvailableExt_not_removed b s ts hts hcond.1)
                      (Bool.not_eq_true t.removed |>.mp hrem) hkind he
                  · rw [if_neg hcond]
                    show evenKinds (setTile
                      (setTile b.tiles s fun u => { u with selected := false })
                      i fun u => { u with selected := true })
                    exact hflags _ i _ (fun u => ⟨rfl, rfl⟩)
                      (hflags b.tiles s _ (fun u => ⟨rfl, rfl⟩) he)
                · rw [if_neg hkind]
                  show evenKinds (setTile
                    (setTile b.tiles s fun u => { u with selected := false })
                    i fun u => { u with selected := true })
                  exact hflags _ i _ (fun u => ⟨rfl, rfl⟩)
                    (hflags b.tiles s _ (fun u => ⟨rfl, rfl⟩) he)
        · rw [if_pos hav]
          split
          · rename_i s hsel
            show evenKinds (setTile b.tiles s fun u => { u with selected := false })
            exact hflags b.tiles s _ (fun u => ⟨rfl, rfl⟩) he
          · exact he

theorem placeFold_map (pool : List TileType)
    (cells : List (Nat × Nat × Nat × Bool)) (n : Nat) (acc : List Tile)
    (hall : ∀ c ∈ cells, c.2.2.2 = true)
    (hlen : n + cells.length ≤ pool.length) :
    ((cells.foldl
      (fun (acc : Nat × List Tile) cell =>
        if cell.2.2.2 ∧ acc.1 < pool.length then
          (acc.1 + 1,
            acc.2 ++ [⟨pool.getD acc.1 TileType.BAMBOO_1, (cell.2.2.1 : Int),
              (cell.2.1 : Int), (cell.1 : Int), false, false, false⟩])
        else (acc.1 + 1, acc.2))
      (n, acc)).2).map (fun t => (t.tileType, t.removed)) =
    acc.map (fun t => (t.tileType, t.removed)) ++
      ((pool.drop n).take cells.length).map (fun k => (k, false)) := by
  induction cells generalizing n acc with
  | nil => simp
  | cons c cs ih =>
    have hc : c.2.2.2 = true := hall c (List.mem_cons_self c cs)
    have hn : n < pool.length := by
      have := hlen
      simp only [List.length_cons] at this
      omega
    have hstep : ((c :: cs).foldl
        (fun (acc : Nat × List Tile) cell =>
          if cell.2.2.2 ∧ acc.1 < pool.length then
            (acc.1 + 1,
              acc.2 ++ [⟨pool.getD acc.1 TileType.BAMBOO_1, (cell.2.2.1 : Int),
                (cell.2.1 : Int), (cell.1 : Int), false, false, false⟩])
          else (acc.1 + 1, acc.2))
        (n, acc))
        = (cs.foldl
        (fun (acc : Nat × List Tile) cell =>
          if cell.2.2.2 ∧ acc.1 < pool.length then
            (acc.1 + 1,
              acc.2 ++ [⟨pool.getD acc.1 TileType.BAMBOO_1, (cell.2.2.1 : Int),
                (cell.2.1 : Int), (cell.1 : Int), false, false, false⟩])
          else (acc.1 + 1, acc.2))
        (n + 1, acc ++ [⟨pool.getD n TileType.BAMBOO_1, (c.2.2.1 : Int),
          (c.2.1 : Int), (c.1 : Int), false, false, false⟩])) := by
      rw [List.foldl_cons, if_pos ⟨hc, hn⟩]
    rw [hstep, ih (n + 1) _ (fun d hd => hall d (List.mem_cons_of_mem c hd))
      (by simp only [List.length_cons] at hlen; omega)]
    have hgd : pool.getD n TileType.BAMBOO_1 = pool[n] := by
      rw [List.getD_eq_getElem?_getD, List.getElem?_eq_getElem hn]
      rfl
    have hdrop : pool.drop n = pool[n] :: pool.drop (n + 1) :=
      List.drop_eq_getElem_cons hn
    have hL : List.map (fun t : Tile => (t.tileType, t.removed))
        (acc ++ [⟨pool.getD n TileType.BAMBOO_1, (c.2.2.1 : Int),
          (c.2.1 : Int), (c.1 : Int), false, false, false⟩])
        = List.map (fun t : Tile => (t.tileType, t.removed)) acc
          ++ [((pool[n] : TileType), false)] := by
      rw [List.map_append, hgd]
      rfl
    rw [hL, List.length_cons, hdrop, List.take_succ_cons, List.map_cons,
      List.append_assoc, List.singleton_append]

set_option maxRecDepth 8192 in
theorem placeTilesFlet_kinds (pool : List TileType) (hlen : pool.length = 200) :
    (placeTilesFlet fletPattern pool).map (fun t => (t.tileType, t.removed)) =
      pool.map (fun k => (k, false)) := by
  unfold placeTilesFlet
  have hall : ∀ c ∈ patternCells fletPattern, c.2.2.2 = true := by decide
  have hcl : (patternCells fletPattern).length = 200 := by decide
  rw [placeFold_map pool (patternCells fletPattern) 0 [] hall (by omega)]
  rw [hcl, List.drop_zero, List.take_of_length_le (by omega)]
  simp

theorem pairedPool_count (pc : List TileType) (k : TileType) :
    (pairedPool pc).count k = 2 * pc.count k := by
  induction pc with
  | nil => rfl
  | cons a tl ih =>
    have hstep : pairedPool (a :: tl) = a :: a :: pairedPool tl := rfl
    rw [hstep, List.count_cons, List.count_cons, List.count_cons, ih]
    by_cases h : a = k
    · simp [h]
      omega
    · simp [h]

theorem pairedPool_length (pc : List TileType) :
    (pairedPool pc).length = 2 * pc.length := by
  induction pc with
  | nil => rfl
  | cons a tl ih =>
    have hstep : pairedPool (a :: tl) = a :: a :: pairedPool tl := rfl
    rw [hstep]
    simp only [List.length_cons, ih]
    omega

theorem kindCount_eq_count_of_map (tiles : List Tile) (pool : List TileType)
    (h : tiles.map (fun t => (t.tileType, t.removed)) = pool.map (fun k => (k, false)))
    (k : TileType) :
    kindCount tiles k = pool.count k := by
  unfold kindCount
  have h1 : tiles.countP (fun t => !t.removed && t.tileType == k)
      = (tiles.map (fun t => (t.tileType, t.removed))).countP
        (fun p => !p.2 && p.1 == k) := by
    rw [List.countP_map]
    rfl
  rw [h1, h, List.countP_map, List.count]
  apply List.countP_congr
  intro x _
  show ((!(x, false).2 && (x, false).1 == k) = true) ↔ ((x == k) = true)
  simp

theorem kindCount_eq_filter_range (tiles : List Tile) (k : TileType) :
    ((List.range tiles.length).filter (liveKindAt tiles k)).length
      = kindCount tiles k := by
  induction tiles using List.reverseRecOn with
  | nil => rfl
  | append_singleton l a ih =>
    have hlen : (l ++ [a]).length = l.length + 1 := by simp
    rw [hlen, List.range_succ, List.filter_append]
    have hcongr : (List.range l.length).filter (liveKindAt (l ++ [a]) k)
        = (List.range l.length).filter (liveKindAt l k) := by
      apply List.filter_congr
      intro i hi
      have hilt : i < l.length := List.mem_range.mp hi
      unfold liveKindAt
      rw [List.getElem?_append_left hilt]
    have hlast : liveKindAt (l ++ [a]) k l.length = (!a.removed && a.tileType == k) := by
      unfold liveKindAt
      rw [List.getElem?_concat_length]
    have hkc : kindCount (l ++ [a]) k
        = kindCount l k + (if !a.removed && a.tileType == k then 1 else 0) := by
      unfold kindCount
      rw [List.countP_append]
      simp [List.countP_cons]
    rw [hcongr, hkc, ← ih, List.length_append, List.filter_cons]
    by_cases hp : (!a.removed && a.tileType == k) = true
    · rw [hlast]
      simp [hp]
    · rw [hlast]
      simp only [Bool.not_eq_true] at hp
      simp [hp]

theorem remainingIdx_filter (b : Board) (k : TileType) :
    ((remainingIdx b).filter (liveKindAt b.tiles k)).length
      = kindCount b.tiles k := by
  unfold remainingIdx
  rw [List.filter_filter]
  have hcongr : (List.range b.tiles.length).filter
      (fun i => liveKindAt b.tiles k i && (match b.tiles[i]? with
        | some t => !t.removed
        | none => false))
      = (List.range b.tiles.length).filter (liveKindAt b.tiles k) := by
    apply List.filter_congr
    intro i _
    unfold liveKindAt
    cases h : b.tiles[i]? with
    | none => rfl
    | some t =>
      cases hr : t.removed <;> simp [hr]
  rw [hcongr, kindCount_eq_filter_range]

theorem remainingIdx_nodup (b : Board) : (remainingIdx b).Nodup :=
  List.Nodup.filter _ (List.nodup_range _)

theorem remainingIdx_live (b : Board) (idx : Nat) (h : idx ∈ remainingIdx b) :
    ∃ t, b.tiles[idx]? = some t ∧ t.removed = false := by
  unfold remainingIdx at h
  have hp := List.of_mem_filter h
  cases ht : b.tiles[idx]? with
  | none =>
    rw [ht] at hp
    exact absurd hp (by simp)
  | some t =>
    rw [ht] at hp
    refine ⟨t, rfl, ?_⟩
    simpa using hp

theorem reshuffle_fold_count (tiles : List Tile) (ord : List Nat)
    (pool : List TileType) (k : TileType)
    (hnd : ord.Nodup) (hlen : pool.length = ord.length)
    (hlive : ∀ idx ∈ ord, ∃ t, tiles[idx]? = some t ∧ t.removed = false) :
    (kindCount ((ord.zip pool).foldl
      (fun ts p => setTile ts p.1 fun u =>
        { u with tileType := p.2, selected := false, highlighted := false })
      tiles) k : Int)
    + ((ord.filter (liveKindAt tiles k)).length : Int)
    = (kindCount tiles k : Int) + (pool.count k : Int) := by
  induction ord generalizing pool tiles with
  | nil =>
    have hp : pool = [] := List.eq_nil_of_length_eq_zero (by simpa using hlen)
    subst hp
    simp
  | cons a ord' ih =>
    cases pool with
    | nil => simp at hlen
    | cons p pool' =>
      obtain ⟨ta, hta, htar⟩ := hlive a (List.mem_cons_self a ord')
      have hset : setTile tiles a
          (fun u => { u with tileType := p, selected := false, highlighted := false })
          = tiles.set a { ta with tileType := p, selected := false, highlighted := false } := by
        unfold setTile
        rw [hta]
      have hstep : ((a :: ord').zip (p :: pool')).foldl
          (fun ts q => setTile ts q.1 fun u =>
            { u with tileType := q.2, selected := false, highlighted := false }) tiles
          = (ord'.zip pool').foldl
          (fun ts q => setTile ts q.1 fun u =>
            { u with tileType := q.2, selected := false, highlighted := false })
          (setTile tiles a fun u =>
            { u with tileType := p, selected := false, highlighted := false }) := rfl
      rw [hstep, hset]
      have hsame : ∀ idx ∈ ord',
          (tiles.set a { ta with tileType := p, selected := false, highlighted := false })[idx]? = tiles[idx]? := by
        intro idx hidx
        have hne : a ≠ idx := by
          rintro rfl
          exact (List.nodup_cons.mp hnd).1 hidx
        exact List.getElem?_set_ne hne
      have hlive' : ∀ idx ∈ ord', ∃ t,
          (tiles.set a { ta with tileType := p, selected := false, highlighted := false })[idx]? = some t ∧ t.removed = false := by
        intro idx hidx
        obtain ⟨t, h1, h2⟩ := hlive idx (List.mem_cons_of_mem a hidx)
        exact ⟨t, by rw [hsame idx hidx]; exact h1, h2⟩
      have ihh := ih (tiles.set a
          { ta with tileType := p, selected := false, highlighted := false }) pool'
        (List.nodup_cons.mp hnd).2 (by simpa using hlen) hlive'
      have hfc : ord'.filter (liveKindAt (tiles.set a
            { ta with tileType := p, selected := false, highlighted := false }) k)
          = ord'.filter (liveKindAt tiles k) := by
        apply List.filter_congr
        intro idx hidx
        unfold liveKindAt
        rw [hsame idx hidx]
      rw [hfc] at ihh
      have hcnt := countP_set_add tiles a ta
        { ta with tileType := p, selected := false, highlighted := false }
        (fun t => !t.removed && t.tileType == k) hta
      have hla : liveKindAt tiles k a = (ta.tileType == k) := by
        unfold liveKindAt
        simp only [hta]
        rw [htar]
        simp
      have hpred1 : (fun t : Tile => !t.removed && t.tileType == k) ta
          = (ta.tileType == k) := by
        show (!ta.removed && ta.tileType == k) = (ta.tileType == k)
        rw [htar]
        simp
      have hpred2 : (fun t : Tile => !t.removed && t.tileType == k)
          ({ ta with tileType := p, selected := false, highlighted := false } : Tile)
          = (p == k) := by
        show (!ta.removed && p == k) = (p == k)
        rw [htar]
        simp
      rw [hpred1, hpred2] at hcnt
      rw [List.filter_cons, List.count_cons, hla]
      unfold kindCount at ihh ⊢
      rcases Bool.eq_false_or_eq_true (ta.tileType == k) with hak | hak <;>
        rcases Bool.eq_false_or_eq_true (p == k) with hpk | hpk
      · rw [if_pos hak, if_pos hpk, List.length_cons]
        rw [if_pos hak, if_pos hpk] at hcnt
        omega
      · have hne2 : ¬((p == k) = true) := by simp [hpk]
        rw [if_pos hak, if_neg hne2, List.length_cons]
        rw [if_pos hak, if_neg hne2] at hcnt
        omega
      · have hne1 : ¬((ta.tileType == k) = true) := by simp [hak]
        rw [if_neg hne1, if_pos hpk]
        rw [if_neg hne1, if_pos hpk] at hcnt
        omega
      · have hne1 : ¬((ta.tileType == k) = true) := by simp [hak]
        have hne2 : ¬((p == k) = true) := by simp [hpk]
        rw [if_neg hne1, if_neg hne2]
        rw [if_neg hne1, if_neg hne2] at hcnt
        omega

/-- Claim C4, counterexample: the slot-variant click is a mutating operation
that breaks the parity invariant — parking one of two matching tiles in a
slot marks it removed while its partner stays on the board, leaving an odd
number of non-removed `BAMBOO_1` tiles. -/
theorem slot_click_parity_cex :
    evenKinds
      (⟨[⟨TileType.BAMBOO_1, 0, 0, 0, false, false, false⟩,
         ⟨TileType.BAMBOO_1, 5, 0, 0, false, false, false⟩],
        20, 10, [none, none, none], none, false, false⟩ : S2State).tiles ∧
    ¬ evenKinds (tileClicked
      ⟨[⟨TileType.BAMBOO_1, 0, 0, 0, false, false, false⟩,
        ⟨TileType.BAMBOO_1, 5, 0, 0, false, false, false⟩],
       20, 10, [none, none, none], none, false, false⟩ 0).tiles := by
  unfold evenKinds
  constructor
  · decide
  · decide

/-- Claim C4, amended: the parity invariant does hold for the three board
mutations of the flet variant — generation from a paired pool filling the
full 20 × 10 pattern, a click on the extended board (the matched removal
removes two same-kind tiles, every other branch only toggles selection
flags), and a reshuffle that redraws the surviving tiles' kinds from a
fresh paired pool — but not for the slot-variant click, which parks a
single tile. -/
theorem kind_parity_behaviour :
    (∀ (pool pairChoices : List TileType), pool.Perm (pairedPool pairChoices) →
      pool.length = 200 → evenKinds (placeTilesFlet fletPattern pool)) ∧
    (∀ (b : Board) (i : Nat), evenKinds b.tiles →
      evenKinds (clickTileExt b i).tiles) ∧
    (∀ (b : Board) (ord : List Nat) (pool pairChoices : List TileType),
      ord.Perm (remainingIdx b) → pool.Perm (pairedPool pairChoices) →
      pool.length = ord.length →
      evenKinds (reshuffleRemaining b ord pool).tiles) := by
  refine ⟨?_, ?_, ?_⟩
  · intro pool pc hperm hlen k
    rw [kindCount_eq_count_of_map (placeTilesFlet fletPattern pool) pool
      (placeTilesFlet_kinds pool hlen) k, hperm.count_eq, pairedPool_count]
    omega
  · intro b i he
    exact clickTileExt_evenKinds b i he
  · intro b ord pool pc hordp hpoolp hlen
    unfold reshuffleRemaining
    by_cases hle : (remainingIdx b).length ≤ 1
    · rw [if_pos hle]
      have h1 : ord.length = (remainingIdx b).length := hordp.length_eq
      have h2 : pool.length = (pairedPool pc).length := hpoolp.length_eq
      have h3 : (pairedPool pc).length = 2 * pc.length := pairedPool_length pc
      have hnil : remainingIdx b = [] := List.eq_nil_of_length_eq_zero (by omega)
      intro k
      have hkc : kindCount b.tiles k = 0 := by
        rw [← remainingIdx_filter b k, hnil]
        rfl
      rw [hkc]
    · rw [if_neg hle]
      intro k
      show kindCount ((ord.zip pool).foldl
        (fun ts p => setTile ts p.1 fun u =>
          { u with tileType := p.2, selected := false, highlighted := false })
        b.tiles) k % 2 = 0
      have hnd : ord.Nodup := (hordp.nodup_iff).mpr (remainingIdx_nodup b)
      have hlive : ∀ idx ∈ ord, ∃ t, b.tiles[idx]? = some t ∧ t.removed = false :=
        fun idx hidx => remainingIdx_live b idx (hordp.mem_iff.mp hidx)
      have key := reshuffle_fold_count b.tiles ord pool k hnd hlen hlive
      have hflt : (ord.filter (liveKindAt b.tiles k)).length = kindCount b.tiles k := by
        rw [(hordp.filter (liveKindAt b.tiles k)).length_eq, remainingIdx_filter]
      have hpc : pool.count k = 2 * pc.count k := by
        rw [hpoolp.count_eq, pairedPool_count]
      rw [hflt] at key
      omega

set_option maxRecDepth 8192 in
/-- Concrete instance of the amended C4 statement: a full paired pool of
`BAMBOO_1` generates an even board, a click on the empty board preserves
parity, and the empty-board reshuffle does too. -/
theorem kind_parity_behaviour_witness :
    evenKinds (placeTilesFlet fletPattern
      (pairedPool (List.replicate 100 TileType.BAMBOO_1))) ∧
    evenKinds (clickTileExt ⟨[], 20, 10, none, false⟩ 0).tiles ∧
    evenKinds (reshuffleRemaining ⟨[], 20, 10, none, false⟩ [] []).tiles := by
  have h := kind_parity_behaviour
  refine ⟨?_, ?_, ?_⟩
  · exact h.1 (pairedPool (List.replicate 100 TileType.BAMBOO_1))
      (List.replicate 100 TileType.BAMBOO_1) (List.Perm.refl _) (by decide)
  · exact h.2.1 ⟨[], 20, 10, none, false⟩ 0 (fun k => rfl)
  · exact h.2.2 ⟨[], 20, 10, none, false⟩ [] [] [] (by decide) (by decide) rfl

/-!
Claim C1 — the generation retry loop of `main_flet.py`.
-/
theorem foldl_overwrite {α : Type} (l : List α) (init : α) :
    l.foldl (fun _ s => s) init = l.getLast?.getD init := by
  induction l generalizing init with
  | nil => rfl
  | cons a tl ih =>
    have hstep : (a :: tl).foldl (fun _ s => s) init = tl.foldl (fun _ s => s) a := rfl
    rw [hstep, ih a]
    cases tl with
    | nil => rfl
    | cons b tl' =>
      rw [List.getLast?_cons_cons]
      have hsome : ((b :: tl').getLast?).isSome := by
        rw [List.getLast?_isSome]
        simp
      obtain ⟨x, hx⟩ := Option.isSome_iff_exists.mp hsome
      rw [hx]
      rfl

/-- Claim C1: the "retry" of `main_flet.py:generate_board` is dead code — the
loop body only re-shuffles, while placement and the solvability check run
once, after the loop. Any two runs whose ten shuffles agree on the final
shuffle produce the identical board and warning flag, so the first nine
attempts can never influence the outcome (contradicting the documented
re-place-and-re-check loop, which the rollback file does implement). The
failure signal itself is consistent: a run that does not warn leaves a board
with a possible move. -/
theorem generation_retry_dead :
    (∀ (s1 s2 : List (List TileType)), s1.getLast? = s2.getLast? →
      generateFlet s1 = generateFlet s2) ∧
    (∀ (s : List (List TileType)), (generateFlet s).2 = false →
      isGameLost ⟨(generateFlet s).1, 20, 10, none, false⟩ = false) := by
  constructor
  · intro s1 s2 hlast
    unfold generateFlet
    rw [foldl_overwrite, foldl_overwrite, hlast]
  · intro s hs
    unfold generateFlet at hs ⊢
    by_cases hl : isGameLost
        ⟨placeTilesFlet fletPattern (s.foldl (fun _ s => s) []), 20, 10, none, false⟩ = true
    · rw [if_neg (by rw [hl]; simp)] at hs
      exact absurd hs (by simp)
    · rw [if_pos (by simp only [Bool.not_eq_true] at hl; rw [hl]; rfl)]
      simp only [Bool.not_eq_true] at hl
      exact hl

/-- Concrete instance: a first shuffle exists but cannot matter — the empty
first shuffle and its absence generate the same board. -/
theorem generation_retry_dead_witness :
    ([[], [TileType.BAMBOO_1]] : List (List TileType)).getLast?
      = ([[TileType.BAMBOO_1]] : List (List TileType)).getLast? ∧
    generateFlet [[], [TileType.BAMBOO_1]] = generateFlet [[TileType.BAMBOO_1]] :=
  ⟨rfl, generation_retry_dead.1 [[], [TileType.BAMBOO_1]] [[TileType.BAMBOO_1]] rfl⟩

theorem generateRollLoop_attempts (pattern : List (List (List Bool))) (W H : Nat) :
    ∀ (pools : List (List TileType)) (last : List Tile),
      (generateRollLoop pattern W H pools last).2.2 ≤ pools.length := by
  intro pools
  induction pools with
  | nil =>
    intro last
    show (0 : Nat) ≤ 0
    exact Nat.le_refl 0
  | cons pool rest ih =>
    intro last
    have hz : generateRollLoop pattern W H (pool :: rest) last
        = (if (!isGameLost ⟨placeTilesRoll pattern pool, W, H, none, false⟩) = true
           then (placeTilesRoll pattern pool, false, 1)
           else ((generateRollLoop pattern W H rest (placeTilesRoll pattern pool)).1,
             (generateRollLoop pattern W H rest (placeTilesRoll pattern pool)).2.1,
             (generateRollLoop pattern W H rest (placeTilesRoll pattern pool)).2.2 + 1)) :=
      rfl
    rw [hz]
    by_cases h : (!isGameLost ⟨placeTilesRoll pattern pool, W, H, none, false⟩) = true
    · rw [if_pos h]
      show (1 : Nat) ≤ (pool :: rest).length
      rw [List.length_cons]
      omega
    · rw [if_neg h]
      have hr := ih (placeTilesRoll pattern pool)
      show (generateRollLoop pattern W H rest (placeTilesRoll pattern pool)).2.2 + 1
        ≤ (pool :: rest).length
      rw [List.length_cons]
      omega

/-- Claim C9: the search loop of `can_connect` terminates — the fueled
search stabilizes at the computable bound `connFuelBound` (each state is
re-enqueued only with a strictly lower turn count over a bounded region,
which is what the measure behind `connFuel` formalizes), and `canConnect`
returns that stable value; the rollback generation loop performs at most
one placement attempt per supplied shuffle, hence at most 10. -/
theorem search_and_retry_terminate :
    (∀ (b : Board) (i j mt f : Nat), connFuelBound b i j mt ≤ f →
      canConnectFuel b i j mt f = canConnect b i j mt) ∧
    (∀ (pattern : List (List (List Bool))) (W H : Nat)
      (pools : List (List TileType)),
      (generateRoll pattern W H pools).2.2 ≤ pools.length) := by
  constructor
  · intro b i j mt f hf
    cases hi : b.tiles[i]? with
    | none =>
      unfold canConnectFuel canConnect
      simp only [hi]
    | some t1 =>
      cases hj : b.tiles[j]? with
      | none =>
        unfold canConnectFuel canConnect
        simp only [hi, hj]
      | some t2 =>
        unfold connFuelBound at hf
        simp only [hi, hj] at hf
        unfold canConnectFuel canConnect
        simp only [hi, hj]
        by_cases hij : i = j
        · rw [if_pos hij, if_pos hij]
        · rw [if_neg hij, if_neg hij]
          by_cases hkind : t1.tileType ≠ t2.tileType
          · rw [if_pos hkind, if_pos hkind]
          · rw [if_neg hkind, if_neg hkind]
            have hm := connFuel_sufficient (connCtx b t1 t2) mt
              ⟨t1.x, t1.y, none, 0⟩ [(⟨t1.x, t1.y, none⟩, 0)]
            rw [bfsLoop_stable (connCtx b t1 t2) mt f
              (connFuel (connCtx b t1 t2) mt) [⟨t1.x, t1.y, none, 0⟩]
              [(⟨t1.x, t1.y, none⟩, 0)] (by omega) hm]
  · intro pattern W H pools
    exact generateRollLoop_attempts pattern W H pools []

/-- Concrete instance: at the bound the fueled search already equals
`canConnect`, and an empty pool list performs zero attempts. -/
theorem search_and_retry_terminate_witness :
    connFuelBound ⟨[], 1, 1, none, false⟩ 0 1 2 ≤ 0 ∧
    canConnectFuel ⟨[], 1, 1, none, false⟩ 0 1 2 0
      = canConnect ⟨[], 1, 1, none, false⟩ 0 1 2 :=
  ⟨by decide, search_and_retry_terminate.1 ⟨[], 1, 1, none, false⟩ 0 1 2 0 (by decide)⟩

/-!
Claim C5 — symmetry of `can_connect`.
-/
/-- Claim C5: for every board occupancy state, every pair of tile indices and
every turn budget, `can_connect(a, b)` equals `can_connect(b, a)` — in
particular at the game's fixed budget of two turns. -/
theorem can_connect_symmetric (b : Board) (i j mt : Nat) :
    canConnect b i j mt = canConnect b j i mt ∧
    canConnect2 b i j = canConnect2 b j i := by
  constructor
  · exact canConnect_symm_core b i j mt
  · unfold canConnect2
    exact canConnect_symm_core b i j 2
